import Mathlib

/-!
Verification of the DevSeeder partial-data sync engine.

The Go program copies a referentially consistent subset of rows from a
source ("prod") database into a destination ("dev") database.  Its core is
the function SyncPartialData (sync.go): it builds an adjacency structure of
non-nullable, non-self foreign-key edges, seeds per-table row-id sets from
the user's request, expands them to a closure by a BFS work-queue, orders
the non-empty tables with a Kahn topological sort (partialTopoSort), and
copies the rows in that order.

This file embeds the relevant parts of the program shallowly:

* table names are strings, row ids are integers;
* a source database is a map from table name to its list of rows, where a
  row is its id together with an association list of column values
  (a missing column or a none value models SQL NULL);
* the SQL queries of sync.go are given their relational semantics as pure
  functions (fetchSomeIDs, fetchReferencedParentIDs, fetchRowsByIDs);
* the BFS loop of SyncPartialData is embedded as a fuel-indexed recursion;
  the fuel is an explicit bound proved sufficient for the queue to empty,
  so the embedding computes exactly the terminated loop.  The choice of
  which queue element to process next is a parameter (pick); the Go code
  always takes the head of its slice-backed queue, which is the pick that
  the top-level definitions instantiate.  The state carries a ghost
  counter of enqueue events used to settle the termination claims;
* the error paths of SyncPartialData are embedded separately over an
  abstract fallible store (section on stores below), since in the pure
  relational model no query can fail.
-/

namespace DevSeeder

/-- ForeignKey mirrors the struct of fks.go: one child.column to
parent.column constraint plus the nullability of the child column. -/
structure ForeignKey where
  FromTable : String
  FromColumn : String
  ToTable : String
  ToColumn : String
  IsNullable : Bool
deriving DecidableEq, Repr

/-- FkEdge mirrors the struct of sync.go: the reduced child-to-parent view
kept in the adjacency map. -/
structure FkEdge where
  ParentTable : String
  ParentColumn : String
  ChildColumn : String
deriving DecidableEq, Repr

/-- One row of a source table: its integer primary key and its column
values; a column that is absent or mapped to none is NULL. -/
structure Row where
  id : Int
  cols : List (String × Option Int)
deriving DecidableEq, Repr

/-- Value of a column in a row (none models SQL NULL). -/
def Row.val (r : Row) (c : String) : Option Int :=
  (r.cols.lookup c).join

/-- A source database: each table name yields the list of its rows. -/
abbrev DB := String → List Row

/-- Step 1 of SyncPartialData (sync.go lines 26 to 45): the adjacency map
from a child table to its parent edges.  Self-referencing relationships and
nullable relationships are skipped; surviving edges keep the order of the
input list. -/
def childToParents (allFks : List ForeignKey) (c : String) : List FkEdge :=
  (allFks.filter (fun fk =>
      fk.FromTable != fk.ToTable && !fk.IsNullable && fk.FromTable == c)).map
    (fun fk => ⟨fk.ToTable, fk.ToColumn, fk.FromColumn⟩)

/-- Relational semantics of the query of fetchSomeIDs (sync.go): up to
limit ids of the table, ascending. -/
def fetchSomeIDs (db : DB) (table : String) (limit : Nat) : List Int :=
  (((db table).map Row.id).insertionSort (fun a b => a ≤ b)).take limit

/-- Relational semantics of the query of fetchReferencedParentIDs
(sync.go): the distinct non-null values of the child column among the rows
of the child table whose id lies in the given set.  An empty id set yields
an empty result, matching the early return of the Go function. -/
def fetchReferencedParentIDs (db : DB) (childTable : String) (edge : FkEdge)
    (childIDs : Finset Int) : Finset Int :=
  if childIDs = ∅ then ∅
  else
    (((db childTable).filter (fun r => decide (r.id ∈ childIDs))).filterMap
      (fun r => r.val edge.ChildColumn)).toFinset

/-- Key set of the rowSets map after the initialization loops of
SyncPartialData (sync.go lines 51 to 68): every table mentioned by a
foreign key, then every requested table, first occurrences kept in order.
The request is the requestedTables map, embedded as an association list
from table name to row limit. -/
def rowSetKeys (allFks : List ForeignKey) (req : List (String × Nat)) :
    List String :=
  ((allFks.flatMap (fun fk => [fk.FromTable, fk.ToTable])) ++
    req.map Prod.fst).dedup

/-- Step 3 of SyncPartialData (sync.go lines 76 to 84): seed each requested
table's set with the fetched ids. -/
def seedRowSets (db : DB) (req : List (String × Nat)) :
    String → Finset Int :=
  req.foldl
    (fun rs p => fun t =>
      if t = p.1 then rs t ∪ (fetchSomeIDs db p.1 p.2).toFinset else rs t)
    (fun _ => ∅)

/-- State of the BFS work-queue loop of SyncPartialData (sync.go lines 92
to 137): the per-table row-id sets, the queue, the enqueued marks, and a
ghost counter of enqueue events (every append to the queue). -/
structure BfsState where
  rowSets : String → Finset Int
  queue : List String
  enqueued : String → Bool
  enqCount : Nat

/-- Body of the inner edge loop (sync.go lines 117 to 136): fetch the
parent ids referenced by the child's current ids, merge the new ones into
the parent's set, and re-queue the parent if its set grew and it is not
already enqueued.  childIDs is the snapshot taken at the top of the
iteration, exactly as the Go code reads rowSets once per dequeued table. -/
def processEdge (db : DB) (childTable : String) (childIDs : Finset Int)
    (s : BfsState) (edge : FkEdge) : BfsState :=
  let newParentIDs := fetchReferencedParentIDs db childTable edge childIDs
  let parentSet := s.rowSets edge.ParentTable
  let changed : Bool := !(newParentIDs ⊆ parentSet)
  let rs : String → Finset Int := fun t =>
    if t = edge.ParentTable then parentSet ∪ newParentIDs else s.rowSets t
  if changed && !(s.enqueued edge.ParentTable) then
    { rowSets := rs
      queue := s.queue ++ [edge.ParentTable]
      enqueued := fun t => if t = edge.ParentTable then true else s.enqueued t
      enqCount := s.enqCount + 1 }
  else
    { s with rowSets := rs }

/-- One iteration of the BFS loop after the dequeued table has been
removed from the queue: clear its enqueued mark, skip it when its set is
empty, otherwise process each of its parent edges in order. -/
def bfsIter (db : DB) (adj : String → List FkEdge) (s : BfsState)
    (childTable : String) (rest : List String) : BfsState :=
  let s1 : BfsState :=
    { s with
        queue := rest
        enqueued := fun t => if t = childTable then false else s.enqueued t }
  let childIDs := s1.rowSets childTable
  if childIDs = ∅ then s1
  else (adj childTable).foldl (processEdge db childTable childIDs) s1

/-- The BFS loop, as a fuel-indexed recursion.  pick chooses which queue
position to dequeue, modelling the nondeterministic order in which work
can be taken; the Go loop always dequeues position 0.  The fuel given to
the loop by the closure functions below is proved sufficient for the
queue to empty, so the recursion computes the terminated loop. -/
def bfsRun (db : DB) (adj : String → List FkEdge) (pick : BfsState → Nat) :
    Nat → BfsState → BfsState
  | 0, s => s
  | fuel + 1, s =>
    if h : s.queue = [] then s
    else
      have hlen : 0 < s.queue.length := by
        cases hq : s.queue with
        | nil => exact absurd hq h
        | cons a l => simp [hq]
      let i := pick s % s.queue.length
      let childTable := s.queue.get ⟨i, Nat.mod_lt _ hlen⟩
      let rest := s.queue.eraseIdx i
      bfsRun db adj pick fuel (bfsIter db adj s childTable rest)

/-- The dequeue discipline of the Go code: the head of the queue. -/
def pickHead : BfsState → Nat := fun _ => 0

/-- Initial BFS state: the seeded row sets, the queue holding exactly the
requested tables (sync.go lines 92 to 99), and the matching enqueued
marks.  The ghost counter starts at the number of initial enqueues. -/
def initState (db : DB) (req : List (String × Nat)) : BfsState :=
  { rowSets := seedRowSets db req
    queue := req.map Prod.fst
    enqueued := fun t => (req.map Prod.fst).contains t
    enqCount := (req.map Prod.fst).length }

/-- Ids that can ever appear in a row set during the closure over db:
for each relevant table, the row ids and the non-null column values. -/
def tableIds (db : DB) (t : String) : Finset Int :=
  ((db t).flatMap (fun r => r.id :: r.cols.filterMap Prod.snd)).toFinset

/-- Union of tableIds over the rowSets keys: a finite universe containing
every id the BFS can ever insert. -/
def allIds (db : DB) (allFks : List ForeignKey) (req : List (String × Nat)) :
    Finset Int :=
  (rowSetKeys allFks req).toFinset.biUnion (tableIds db)

/-- Slack of a state relative to a key list and an id universe: how many
ids of the universe each keyed set is still missing.  Every strict growth
of a set decreases it. -/
def slackG (keys : List String) (U : Finset Int) (s : BfsState) : Nat :=
  ∑ t ∈ keys.toFinset, (U.card - (s.rowSets t).card)

/-- Slack of a state for the closure of SyncPartialData. -/
def slack (db : DB) (allFks : List ForeignKey) (req : List (String × Nat))
    (s : BfsState) : Nat :=
  slackG (rowSetKeys allFks req) (allIds db allFks req) s

/-- Termination measure of the BFS loop: slack plus queue length.  Each
iteration strictly decreases it. -/
def bfsMeasure (db : DB) (allFks : List ForeignKey)
    (req : List (String × Nat)) (s : BfsState) : Nat :=
  slack db allFks req s + s.queue.length

/-- Fuel sufficient for the BFS loop to drain its queue. -/
def bfsFuel (db : DB) (allFks : List ForeignKey)
    (req : List (String × Nat)) : Nat :=
  bfsMeasure db allFks req (initState db req) + 1

/-- Final state of the BFS phase of SyncPartialData under a dequeue
discipline pick. -/
def closureStateWith (pick : BfsState → Nat) (db : DB)
    (allFks : List ForeignKey) (req : List (String × Nat)) : BfsState :=
  bfsRun db (childToParents allFks) pick (bfsFuel db allFks req)
    (initState db req)

/-- Final state of the BFS phase with the Go dequeue discipline. -/
def closureState (db : DB) (allFks : List ForeignKey)
    (req : List (String × Nat)) : BfsState :=
  closureStateWith pickHead db allFks req

/-- The per-table row-id sets computed by the BFS closure under a dequeue
discipline pick. -/
def closureSetsWith (pick : BfsState → Nat) (db : DB)
    (allFks : List ForeignKey) (req : List (String × Nat)) :
    String → Finset Int :=
  (closureStateWith pick db allFks req).rowSets

/-- The per-table row-id sets computed by the BFS closure of
SyncPartialData. -/
def closureSets (db : DB) (allFks : List ForeignKey)
    (req : List (String × Nat)) : String → Finset Int :=
  (closureState db allFks req).rowSets

/-! Kahn topological sort (partialTopoSort, sync.go lines 359 to 422). -/

/-- Parent list of a child table in partialTopoSort: for each foreign key
that is not self-referencing, is not nullable, and has both endpoints in
the needed set, the parent table is appended (sync.go lines 376 to 383).
Duplicates are kept, exactly as the Go code appends one entry per
qualifying foreign key. -/
def depMap (allFks : List ForeignKey) (needed : List String) (c : String) :
    List String :=
  (allFks.filter (fun fk =>
      fk.FromTable != fk.ToTable && needed.contains fk.FromTable &&
        needed.contains fk.ToTable && !fk.IsNullable &&
        fk.FromTable == c)).map ForeignKey.ToTable

/-- Initial in-degree of a table: the length of its parent list, counted
with multiplicity (sync.go lines 385 to 390). -/
def inDegree0 (allFks : List ForeignKey) (needed : List String)
    (c : String) : Int :=
  (depMap allFks needed c).length

/-- State of the Kahn loop: the queue, the emitted order, and the current
in-degrees. -/
structure KState where
  queue : List String
  sorted : List String
  inDeg : String → Int

/-- One iteration of the Kahn loop for the dequeued table cur: append cur
to the order, then scan every needed table; a table whose parent list
contains cur has its in-degree decremented once and is enqueued when the
new value is zero (sync.go lines 401 to 415).  The scan order stands in
for the Go map iteration over depMap. -/
def kahnIter (allFks : List ForeignKey) (needed : List String) (s : KState)
    (cur : String) (rest : List String) : KState :=
  needed.foldl
    (fun s child =>
      if (depMap allFks needed child).contains cur then
        let d := s.inDeg child - 1
        { queue := if d = 0 then s.queue ++ [child] else s.queue
          sorted := s.sorted
          inDeg := fun t => if t = child then d else s.inDeg t }
      else s)
    { queue := rest, sorted := s.sorted ++ [cur], inDeg := s.inDeg }

/-- The Kahn loop with fuel; the fuel passed by partialTopoSort is proved
sufficient for the queue to empty. -/
def kahnRun (allFks : List ForeignKey) (needed : List String) :
    Nat → KState → KState
  | 0, s => s
  | fuel + 1, s =>
    match s.queue with
    | [] => s
    | cur :: rest => kahnRun allFks needed fuel (kahnIter allFks needed s cur rest)

/-- Initial Kahn state: every needed table with in-degree zero is queued,
in list order (standing in for the Go map iteration over inDegree). -/
def kahnInit (allFks : List ForeignKey) (needed : List String) : KState :=
  { queue := needed.filter (fun t => inDegree0 allFks needed t == 0)
    sorted := []
    inDeg := inDegree0 allFks needed }

/-- partialTopoSort (sync.go): run the Kahn loop and fail when the emitted
order is shorter than the needed set. -/
def partialTopoSort (allFks : List ForeignKey) (needed : List String) :
    Except String (List String) :=
  let final := kahnRun allFks needed needed.length (kahnInit allFks needed)
  if final.sorted.length = needed.length then Except.ok final.sorted
  else Except.error "topological sort: cycle detected or missing table references"

/-! Row transfer (steps 5 to 7 of SyncPartialData) over a pure model of
the destination database. -/

/-- The destination database: each table name yields its current rows. -/
abbrev Dest := String → List Row

/-- truncateTable on the pure destination model. -/
def truncateTable (d : Dest) (table : String) : Dest :=
  fun t => if t = table then [] else d t

/-- Relational semantics of fetchRowsByIDs (sync.go): the rows of the
table whose id is in the set, in table order. -/
def fetchRowsByIDs (db : DB) (table : String) (idSet : Finset Int) :
    List Row :=
  (db table).filter (fun r => decide (r.id ∈ idSet))

/-- insertRows on the pure destination model: append the batch. -/
def insertRows (d : Dest) (table : String) (rowsData : List Row) : Dest :=
  fun t => if t = table then d t ++ rowsData else d t

/-- Step 7 of SyncPartialData: copy each scheduled table, skipping empty
sets, truncating first when resetTables is set. -/
def copyTables (db : DB) (resetTables : Bool)
    (rowSets : String → Finset Int) (sorted : List String) (d : Dest) :
    Dest :=
  sorted.foldl
    (fun d table =>
      let idSet := rowSets table
      if idSet = ∅ then d
      else
        let d1 := if resetTables then truncateTable d table else d
        insertRows d1 table (fetchRowsByIDs db table idSet))
    d

/-- Step 5 of SyncPartialData under a dequeue discipline pick: the tables
whose final row sets are non-empty, in key order (standing in for the Go
map iteration over rowSets). -/
def tablesNeedingCopyWith (pick : BfsState → Nat) (db : DB)
    (allFks : List ForeignKey) (req : List (String × Nat)) : List String :=
  (rowSetKeys allFks req).filter
    (fun t => decide (closureSetsWith pick db allFks req t ≠ ∅))

/-- Step 5 of SyncPartialData: the tables whose final row sets are
non-empty, in key order (standing in for the Go map iteration over
rowSets). -/
def tablesNeedingCopy (db : DB) (allFks : List ForeignKey)
    (req : List (String × Nat)) : List String :=
  (rowSetKeys allFks req).filter
    (fun t => decide (closureSets db allFks req t ≠ ∅))

/-- The copy order chosen by SyncPartialData (step 6). -/
def copyOrder (db : DB) (allFks : List ForeignKey)
    (req : List (String × Nat)) : Except String (List String) :=
  partialTopoSort allFks (tablesNeedingCopy db allFks req)

/-- SyncPartialData over the pure relational model: compute the closure,
schedule, and copy; a scheduling failure aborts with the wrapped error,
exactly as sync.go line 154 does.  In the pure model queries cannot fail,
so the closure and copy phases are total; their error paths are embedded
over fallible stores below. -/
def SyncPartialData (db : DB) (allFks : List ForeignKey)
    (req : List (String × Nat)) (resetTables : Bool) (d : Dest) :
    Except String Dest :=
  match partialTopoSort allFks (tablesNeedingCopy db allFks req) with
  | Except.error e => Except.error ("topoSort error: " ++ e)
  | Except.ok sorted =>
    Except.ok (copyTables db resetTables (closureSets db allFks req) sorted d)

/-! Error-path embedding.  The Go queries can fail; the pure relational
model above cannot, so the control flow of SyncPartialData around query
errors is embedded once more over an abstract fallible store.  Each store
operation either returns the data or an error string; the wrapping applied
by SyncPartialData to each error is the exact message built by the
corresponding fmt.Errorf call of sync.go. -/

/-- Fallible source-database operations used by SyncPartialData. -/
structure ProdStore where
  fetchSomeIDs : String → Nat → Except String (List Int)
  fetchReferencedParentIDs :
    String → FkEdge → Finset Int → Except String (Finset Int)
  fetchRowsByIDs : String → Finset Int → Except String (List Row)

/-- Fallible destination-database operations used by SyncPartialData. -/
structure DevStore where
  truncateTable : Dest → String → Except String Dest
  insertRows : Dest → String → List Row → Except String Dest

/-- processEdge over a fallible store: a query failure is returned wrapped
as "fetchReferencedParentIDs error: " followed by the underlying message,
exactly the fmt.Errorf of sync.go line 120. -/
def processEdgeE (store : ProdStore) (childTable : String)
    (childIDs : Finset Int) (s : BfsState) (edge : FkEdge) :
    Except String BfsState :=
  match store.fetchReferencedParentIDs childTable edge childIDs with
  | Except.error e => Except.error ("fetchReferencedParentIDs error: " ++ e)
  | Except.ok newParentIDs =>
    let parentSet := s.rowSets edge.ParentTable
    let changed : Bool := !(newParentIDs ⊆ parentSet)
    let rs : String → Finset Int := fun t =>
      if t = edge.ParentTable then parentSet ∪ newParentIDs else s.rowSets t
    if changed && !(s.enqueued edge.ParentTable) then
      Except.ok
        { rowSets := rs
          queue := s.queue ++ [edge.ParentTable]
          enqueued := fun t =>
            if t = edge.ParentTable then true else s.enqueued t
          enqCount := s.enqCount + 1 }
    else
      Except.ok { s with rowSets := rs }

/-- One BFS iteration over a fallible store. -/
def bfsIterE (store : ProdStore) (adj : String → List FkEdge)
    (s : BfsState) (childTable : String) (rest : List String) :
    Except String BfsState :=
  let s1 : BfsState :=
    { s with
        queue := rest
        enqueued := fun t => if t = childTable then false else s.enqueued t }
  let childIDs := s1.rowSets childTable
  if childIDs = ∅ then Except.ok s1
  else (adj childTable).foldlM (processEdgeE store childTable childIDs) s1

/-- The BFS loop over a fallible store: the first query error aborts the
loop immediately, already wrapped. -/
def bfsRunE (store : ProdStore) (adj : String → List FkEdge) :
    Nat → BfsState → Except String BfsState
  | 0, s => Except.ok s
  | fuel + 1, s =>
    match s.queue with
    | [] => Except.ok s
    | childTable :: rest =>
      match bfsIterE store adj s childTable rest with
      | Except.error e => Except.error e
      | Except.ok s1 => bfsRunE store adj fuel s1

/-- Seeding over a fallible store (sync.go lines 76 to 84): a fetch
failure is wrapped naming the table, exactly the fmt.Errorf of line 79. -/
def seedRowSetsE (store : ProdStore) (req : List (String × Nat)) :
    Except String (String → Finset Int) :=
  req.foldlM
    (fun rs p =>
      match store.fetchSomeIDs p.1 p.2 with
      | Except.error e =>
        Except.error ("fetchSomeIDs error for table " ++ p.1 ++ ": " ++ e)
      | Except.ok ids =>
        Except.ok (fun t => if t = p.1 then rs t ∪ ids.toFinset else rs t))
    (fun _ => ∅)

/-- Copy phase over fallible stores (sync.go lines 160 to 184), with the
wrapped errors of lines 170, 177 and 182. -/
def copyTablesE (prod : ProdStore) (dev : DevStore) (resetTables : Bool)
    (rowSets : String → Finset Int) (sorted : List String) (d : Dest) :
    Except String Dest :=
  sorted.foldlM
    (fun d table =>
      let idSet := rowSets table
      if idSet = ∅ then Except.ok d
      else
        match
          (if resetTables then
            match dev.truncateTable d table with
            | Except.error e =>
              Except.error ("truncate error on " ++ table ++ ": " ++ e)
            | Except.ok d1 => Except.ok d1
          else Except.ok d) with
        | Except.error e => Except.error e
        | Except.ok d1 =>
          match prod.fetchRowsByIDs table idSet with
          | Except.error e => Except.error ("fetchRowsByIDs error: " ++ e)
          | Except.ok rowsData =>
            match dev.insertRows d1 table rowsData with
            | Except.error e => Except.error ("insertRows error: " ++ e)
            | Except.ok d2 => Except.ok d2)
    d

/-- SyncPartialData over fallible stores: seed, expand, schedule, copy;
any error aborts the run at once with the wrapped message.  The BFS fuel
is a parameter because an arbitrary store admits no computable bound. -/
def SyncPartialDataE (prod : ProdStore) (dev : DevStore)
    (allFks : List ForeignKey) (req : List (String × Nat))
    (resetTables : Bool) (fuel : Nat) (d : Dest) : Except String Dest :=
  match seedRowSetsE prod req with
  | Except.error e => Except.error e
  | Except.ok seeded =>
    let s0 : BfsState :=
      { rowSets := seeded
        queue := req.map Prod.fst
        enqueued := fun t => (req.map Prod.fst).contains t
        enqCount := (req.map Prod.fst).length }
    match bfsRunE prod (childToParents allFks) fuel s0 with
    | Except.error e => Except.error e
    | Except.ok sFinal =>
      let needed := (rowSetKeys allFks req).filter
        (fun t => decide (sFinal.rowSets t ≠ ∅))
      match partialTopoSort allFks needed with
      | Except.error e => Except.error ("topoSort error: " ++ e)
      | Except.ok sorted =>
        copyTablesE prod dev resetTables sFinal.rowSets sorted d

/-! Specification-side notions used to state the claims. -/

/-- Parent edges as the specification words them: one edge per
non-nullable relationship, self-referencing ones included.  This is the
claim-side notion of a child-to-parent reference, to be compared with the
childToParents adjacency actually built by the code, which also drops
self-referencing relationships. -/
def specParentEdges (allFks : List ForeignKey) (c : String) : List FkEdge :=
  (allFks.filter (fun fk => !fk.IsNullable && fk.FromTable == c)).map
    (fun fk => ⟨fk.ToTable, fk.ToColumn, fk.FromColumn⟩)

/-- Transitive reachability of rows by child-to-parent references: a row id
is reachable in a table when it is seeded there, or when some reachable row
of a child table references it through an adjacency edge (a non-null value
of the edge's child column). -/
inductive Reach (db : DB) (adj : String → List FkEdge)
    (seeds : String → Finset Int) : String → Int → Prop
  | seed (t : String) (i : Int) (h : i ∈ seeds t) : Reach db adj seeds t i
  | step (c : String) (r : Row) (e : FkEdge) (p : Int)
      (hr : Reach db adj seeds c r.id) (hmem : r ∈ db c) (he : e ∈ adj c)
      (hv : r.val e.ChildColumn = some p) : Reach db adj seeds e.ParentTable p

/-- Tables mentioned by the foreign-key list. -/
def fkTables (allFks : List ForeignKey) : Finset String :=
  (allFks.flatMap (fun fk => [fk.FromTable, fk.ToTable])).toFinset

/-- Acyclicity of the non-nullable foreign-key graph: every non-empty set
of tables has a member with no non-nullable edge back into the set.  Over
a finite graph this is the absence of a directed cycle; in particular a
non-nullable self-referencing relationship is a cycle of length one. -/
def FkAcyclic (allFks : List ForeignKey) : Prop :=
  ∀ S ∈ (fkTables allFks).powerset, S.Nonempty →
    ∃ c ∈ S, ∀ fk ∈ allFks, fk.FromTable = c → fk.IsNullable = false →
      fk.ToTable ∉ S

instance (allFks : List ForeignKey) : Decidable (FkAcyclic allFks) := by
  unfold FkAcyclic; infer_instance

/-- Absence of a cycle among the distinct scheduling edges of
partialTopoSort restricted to the needed set: every non-empty subset has a
member none of whose parents lies in the subset. -/
def KahnNoCycle (allFks : List ForeignKey) (needed : List String) : Prop :=
  ∀ S ∈ needed.toFinset.powerset, S.Nonempty →
    ∃ c ∈ S, ∀ p ∈ depMap allFks needed c, p ∉ S

instance (allFks : List ForeignKey) (needed : List String) :
    Decidable (KahnNoCycle allFks needed) := by
  unfold KahnNoCycle; infer_instance

/-! The running example of the specification: order_items referencing
orders referencing customers. -/

/-- Example source database: customer 5, orders 100 and 101 referencing
it, order_items 10 and 11 referencing the two orders. -/
def exDb : DB := fun t =>
  if t = "customers" then [⟨5, []⟩]
  else if t = "orders" then
    [⟨100, [("customer_id", some 5)]⟩, ⟨101, [("customer_id", some 5)]⟩]
  else if t = "order_items" then
    [⟨10, [("order_id", some 100)]⟩, ⟨11, [("order_id", some 101)]⟩]
  else []

/-- Example relationships: orders.customer_id to customers.id (not null)
and order_items.order_id to orders.id (not null). -/
def exFks : List ForeignKey :=
  [⟨"orders", "customer_id", "customers", "id", false⟩,
   ⟨"order_items", "order_id", "orders", "id", false⟩]

/-- Example request: two rows of order_items. -/
def exReq : List (String × Nat) := [("order_items", 2)]

/-! Basic lemmas about the query semantics, the adjacency map, the key
set and the seeding. -/

theorem lookup_mem {l : List (String × Option Int)} {k : String}
    {v : Option Int} (h : l.lookup k = some v) : (k, v) ∈ l := by
  induction l with
  | nil => simp [List.lookup] at h
  | cons a l ih =>
    rw [List.lookup] at h
    cases hk : k == a.1 with
    | false =>
      rw [hk] at h
      exact List.mem_cons_of_mem _ (ih h)
    | true =>
      rw [hk] at h
      have hk1 : k = a.1 := by simpa using hk
      have hv1 : a.2 = v := by
        injection h
      rw [hk1, ← hv1]
      exact List.mem_cons_self _ _

theorem Row.val_mem_cols {r : Row} {c : String} {v : Int}
    (h : r.val c = some v) : v ∈ r.cols.filterMap Prod.snd := by
  unfold Row.val at h
  cases hl : r.cols.lookup c with
  | none => rw [hl] at h; simp [Option.join] at h
  | some o =>
    rw [hl] at h
    have : o = some v := by
      cases o
      · simp [Option.join] at h
      · simpa [Option.join] using h
    subst this
    exact List.mem_filterMap.mpr ⟨(c, some v), lookup_mem hl, rfl⟩

theorem fetchReferencedParentIDs_empty (db : DB) (c : String) (e : FkEdge) :
    fetchReferencedParentIDs db c e ∅ = ∅ := by
  simp [fetchReferencedParentIDs]

theorem mem_fetchReferencedParentIDs {db : DB} {c : String} {e : FkEdge}
    {S : Finset Int} {p : Int} :
    p ∈ fetchReferencedParentIDs db c e S ↔
      ∃ r ∈ db c, r.id ∈ S ∧ r.val e.ChildColumn = some p := by
  unfold fetchReferencedParentIDs
  by_cases hS : S = ∅
  · subst hS
    simp
  · rw [if_neg hS]
    simp only [List.mem_toFinset, List.mem_filterMap, List.mem_filter,
      decide_eq_true_eq]
    constructor
    · rintro ⟨r, ⟨hr, hid⟩, hv⟩
      exact ⟨r, hr, hid, hv⟩
    · rintro ⟨r, hr, hid, hv⟩
      exact ⟨r, ⟨hr, hid⟩, hv⟩

theorem mem_tableIds_of_id {db : DB} {t : String} {r : Row}
    (hr : r ∈ db t) : r.id ∈ tableIds db t := by
  unfold tableIds
  rw [List.mem_toFinset, List.mem_flatMap]
  exact ⟨r, hr, List.mem_cons_self _ _⟩

theorem mem_tableIds_of_val {db : DB} {t : String} {r : Row} {c : String}
    {v : Int} (hr : r ∈ db t) (hv : r.val c = some v) :
    v ∈ tableIds db t := by
  unfold tableIds
  rw [List.mem_toFinset, List.mem_flatMap]
  exact ⟨r, hr, List.mem_cons_of_mem _ (Row.val_mem_cols hv)⟩

theorem fetchReferencedParentIDs_subset_tableIds (db : DB) (c : String)
    (e : FkEdge) (S : Finset Int) :
    fetchReferencedParentIDs db c e S ⊆ tableIds db c := by
  intro p hp
  rw [mem_fetchReferencedParentIDs] at hp
  obtain ⟨r, hr, _, hv⟩ := hp
  exact mem_tableIds_of_val hr hv

theorem fetchSomeIDs_subset_tableIds (db : DB) (t : String) (lim : Nat) :
    ∀ i ∈ fetchSomeIDs db t lim, i ∈ tableIds db t := by
  intro i hi
  unfold fetchSomeIDs at hi
  have h1 : i ∈ ((db t).map Row.id).insertionSort (fun a b => a ≤ b) :=
    (List.take_sublist _ _).subset hi
  have h2 : i ∈ (db t).map Row.id :=
    (List.perm_insertionSort _ _).subset h1
  obtain ⟨r, hr, hid⟩ := List.mem_map.mp h2
  subst hid
  exact mem_tableIds_of_id hr

theorem fk_mem_rowSetKeys {allFks : List ForeignKey}
    {req : List (String × Nat)} {fk : ForeignKey} (h : fk ∈ allFks) :
    fk.FromTable ∈ rowSetKeys allFks req ∧
      fk.ToTable ∈ rowSetKeys allFks req := by
  unfold rowSetKeys
  rw [List.mem_dedup, List.mem_dedup]
  constructor
  · exact List.mem_append_left _
      (List.mem_flatMap.mpr ⟨fk, h, by simp⟩)
  · exact List.mem_append_left _
      (List.mem_flatMap.mpr ⟨fk, h, by simp⟩)

theorem req_mem_rowSetKeys {allFks : List ForeignKey}
    {req : List (String × Nat)} {t : String} (h : t ∈ req.map Prod.fst) :
    t ∈ rowSetKeys allFks req := by
  unfold rowSetKeys
  rw [List.mem_dedup]
  exact List.mem_append_right _ h

theorem rowSetKeys_nodup (allFks : List ForeignKey)
    (req : List (String × Nat)) : (rowSetKeys allFks req).Nodup :=
  List.nodup_dedup _

theorem mem_childToParents {allFks : List ForeignKey} {c : String}
    {e : FkEdge} :
    e ∈ childToParents allFks c ↔
      ∃ fk ∈ allFks, fk.IsNullable = false ∧ fk.FromTable ≠ fk.ToTable ∧
        fk.FromTable = c ∧ e = ⟨fk.ToTable, fk.ToColumn, fk.FromColumn⟩ := by
  unfold childToParents
  rw [List.mem_map]
  constructor
  · rintro ⟨fk, hfk, rfl⟩
    rw [List.mem_filter] at hfk
    obtain ⟨hmem, hcond⟩ := hfk
    simp only [Bool.and_eq_true, bne_iff_ne, Bool.not_eq_true',
      beq_iff_eq] at hcond
    exact ⟨fk, hmem, hcond.1.2, hcond.1.1, hcond.2, rfl⟩
  · rintro ⟨fk, hmem, hnul, hne, hc, rfl⟩
    refine ⟨fk, List.mem_filter.mpr ⟨hmem, ?_⟩, rfl⟩
    simp only [Bool.and_eq_true, bne_iff_ne, Bool.not_eq_true', beq_iff_eq]
    exact ⟨⟨hne, hnul⟩, hc⟩

theorem mem_specParentEdges {allFks : List ForeignKey} {c : String}
    {e : FkEdge} :
    e ∈ specParentEdges allFks c ↔
      ∃ fk ∈ allFks, fk.IsNullable = false ∧ fk.FromTable = c ∧
        e = ⟨fk.ToTable, fk.ToColumn, fk.FromColumn⟩ := by
  unfold specParentEdges
  rw [List.mem_map]
  constructor
  · rintro ⟨fk, hfk, rfl⟩
    rw [List.mem_filter] at hfk
    obtain ⟨hmem, hcond⟩ := hfk
    simp only [Bool.and_eq_true, Bool.not_eq_true', beq_iff_eq] at hcond
    exact ⟨fk, hmem, hcond.1, hcond.2, rfl⟩
  · rintro ⟨fk, hmem, hnul, hc, rfl⟩
    refine ⟨fk, List.mem_filter.mpr ⟨hmem, ?_⟩, rfl⟩
    simp only [Bool.and_eq_true, Bool.not_eq_true', beq_iff_eq]
    exact ⟨hnul, hc⟩

theorem childToParents_parent_mem_keys {allFks : List ForeignKey}
    (req : List (String × Nat)) {c : String} {e : FkEdge}
    (h : e ∈ childToParents allFks c) :
    e.ParentTable ∈ rowSetKeys allFks req ∧ e.ParentTable ≠ c := by
  rw [mem_childToParents] at h
  obtain ⟨fk, hmem, _, hne, hc, rfl⟩ := h
  refine ⟨(fk_mem_rowSetKeys hmem).2, ?_⟩
  subst hc
  exact fun hcontra => hne hcontra.symm

theorem tableIds_subset_allIds {db : DB} {allFks : List ForeignKey}
    {req : List (String × Nat)} {t : String}
    (h : t ∈ rowSetKeys allFks req) :
    tableIds db t ⊆ allIds db allFks req := by
  unfold allIds
  intro i hi
  exact Finset.mem_biUnion.mpr ⟨t, List.mem_toFinset.mpr h, hi⟩

theorem mem_seedRowSets {db : DB} {req : List (String × Nat)} {t : String}
    {i : Int} :
    i ∈ seedRowSets db req t ↔
      ∃ p ∈ req, p.1 = t ∧ i ∈ (fetchSomeIDs db t p.2).toFinset := by
  unfold seedRowSets
  suffices h : ∀ (l : List (String × Nat)) (rs : String → Finset Int),
      i ∈ (l.foldl (fun rs p => fun u =>
        if u = p.1 then rs u ∪ (fetchSomeIDs db p.1 p.2).toFinset
        else rs u) rs) t ↔
        i ∈ rs t ∨ ∃ p ∈ l, p.1 = t ∧ i ∈ (fetchSomeIDs db t p.2).toFinset by
    rw [h req (fun _ => ∅)]
    simp
  intro l
  induction l with
  | nil => intro rs; simp
  | cons a l ih =>
    intro rs
    rw [List.foldl_cons, ih]
    show i ∈ (if t = a.1 then rs t ∪ (fetchSomeIDs db a.1 a.2).toFinset
        else rs t) ∨ _ ↔ _
    by_cases ht : t = a.1
    · rw [if_pos ht]
      simp only [Finset.mem_union]
      constructor
      · rintro ((h | h) | ⟨p, hp, hpt, hpi⟩)
        · exact Or.inl h
        · exact Or.inr ⟨a, List.mem_cons_self _ _, ht.symm, by rw [ht]; exact h⟩
        · exact Or.inr ⟨p, List.mem_cons_of_mem _ hp, hpt, hpi⟩
      · rintro (h | ⟨p, hp, hpt, hpi⟩)
        · exact Or.inl (Or.inl h)
        · rcases List.mem_cons.mp hp with rfl | hp
          · exact Or.inl (Or.inr (by rw [← ht]; exact hpi))
          · exact Or.inr ⟨p, hp, hpt, hpi⟩
    · rw [if_neg ht]
      constructor
      · rintro (h | ⟨p, hp, hpt, hpi⟩)
        · exact Or.inl h
        · exact Or.inr ⟨p, List.mem_cons_of_mem _ hp, hpt, hpi⟩
      · rintro (h | ⟨p, hp, hpt, hpi⟩)
        · exact Or.inl h
        · rcases List.mem_cons.mp hp with rfl | hp
          · exact absurd hpt.symm ht
          · exact Or.inr ⟨p, hp, hpt, hpi⟩

theorem seedRowSets_eq_empty {db : DB} {req : List (String × Nat)}
    {t : String} (h : t ∉ req.map Prod.fst) : seedRowSets db req t = ∅ := by
  ext i
  rw [mem_seedRowSets]
  simp only [Finset.not_mem_empty, iff_false]
  rintro ⟨p, hp, hpt, _⟩
  exact h (List.mem_map.mpr ⟨p, hp, hpt⟩)

theorem seedRowSets_subset_allIds {db : DB} {allFks : List ForeignKey}
    {req : List (String × Nat)} (t : String) :
    seedRowSets db req t ⊆ allIds db allFks req := by
  intro i hi
  rw [mem_seedRowSets] at hi
  obtain ⟨p, hp, hpt, hpi⟩ := hi
  have htk : t ∈ rowSetKeys allFks req :=
    req_mem_rowSetKeys (List.mem_map.mpr ⟨p, hp, hpt⟩)
  exact tableIds_subset_allIds htk
    (fetchSomeIDs_subset_tableIds db t p.2 i (List.mem_toFinset.mp hpi))

/-! Characterization of processEdge and the invariants of the BFS edge
fold. -/

theorem processEdge_rowSets (db : DB) (c : String) (S : Finset Int)
    (s : BfsState) (e : FkEdge) :
    (processEdge db c S s e).rowSets = fun t =>
      if t = e.ParentTable then
        s.rowSets e.ParentTable ∪ fetchReferencedParentIDs db c e S
      else s.rowSets t := by
  simp only [processEdge]
  split
  · rfl
  · rfl

theorem processEdge_spec (db : DB) (c : String) (S : Finset Int)
    (s : BfsState) (e : FkEdge) :
    ((processEdge db c S s e).queue = s.queue ∧
      (processEdge db c S s e).enqueued = s.enqueued ∧
      (processEdge db c S s e).enqCount = s.enqCount ∧
      (fetchReferencedParentIDs db c e S ⊆ s.rowSets e.ParentTable ∨
        s.enqueued e.ParentTable = true)) ∨
    ((processEdge db c S s e).queue = s.queue ++ [e.ParentTable] ∧
      (processEdge db c S s e).enqueued =
        (fun t => if t = e.ParentTable then true else s.enqueued t) ∧
      (processEdge db c S s e).enqCount = s.enqCount + 1 ∧
      ¬ fetchReferencedParentIDs db c e S ⊆ s.rowSets e.ParentTable ∧
      s.enqueued e.ParentTable = false) := by
  simp only [processEdge]
  split
  case isTrue h =>
    right
    simp only [Bool.and_eq_true, Bool.not_eq_true', decide_eq_true_eq] at h
    exact ⟨rfl, rfl, rfl, by simpa using h.1, h.2⟩
  case isFalse h =>
    left
    refine ⟨rfl, rfl, rfl, ?_⟩
    simp only [Bool.and_eq_true, Bool.not_eq_true', decide_eq_true_eq,
      not_and] at h
    by_cases hsub : fetchReferencedParentIDs db c e S ⊆
        s.rowSets e.ParentTable
    · exact Or.inl hsub
    · have hne := h (by simpa using hsub)
      refine Or.inr ?_
      cases hb : s.enqueued e.ParentTable
      · exact absurd hb hne
      · rfl

theorem processEdge_rowSets_mono (db : DB) (c : String) (S : Finset Int)
    (s : BfsState) (e : FkEdge) (t : String) :
    s.rowSets t ⊆ (processEdge db c S s e).rowSets t := by
  rw [processEdge_rowSets]
  dsimp only
  split
  case isTrue h => rw [h]; exact Finset.subset_union_left
  case isFalse h => exact subset_rfl

theorem slackG_le_of_mono (keys : List String) (U : Finset Int)
    {s s' : BfsState}
    (h : ∀ t, (s.rowSets t).card ≤ (s'.rowSets t).card) :
    slackG keys U s' ≤ slackG keys U s :=
  Finset.sum_le_sum (fun t _ => Nat.sub_le_sub_left (h t) _)

theorem slackG_add_one_le {keys : List String} {U : Finset Int}
    {s s' : BfsState} {P : String} (hP : P ∈ keys.toFinset)
    (hmono : ∀ t, (s.rowSets t).card ≤ (s'.rowSets t).card)
    (hPU : s'.rowSets P ⊆ U)
    (hgrow : (s.rowSets P).card < (s'.rowSets P).card) :
    slackG keys U s' + 1 ≤ slackG keys U s := by
  unfold slackG
  rw [← Finset.sum_erase_add _ _ hP, ← Finset.sum_erase_add _ _ hP]
  have h1 : ∑ t ∈ keys.toFinset.erase P, (U.card - (s'.rowSets t).card) ≤
      ∑ t ∈ keys.toFinset.erase P, (U.card - (s.rowSets t).card) :=
    Finset.sum_le_sum (fun t _ => Nat.sub_le_sub_left (hmono t) _)
  have h2 : (s'.rowSets P).card ≤ U.card := Finset.card_le_card hPU
  omega

/-- Facts preserved by the edge fold of one BFS iteration, stated relative
to the state s0 the fold started from. -/
structure FoldOk (db : DB) (adj : String → List FkEdge)
    (seeds : String → Finset Int) (keys : List String) (U : Finset Int)
    (s0 s : BfsState) : Prop where
  hqe : ∀ t, t ∈ s.queue ↔ s.enqueued t = true
  hnd : s.queue.Nodup
  hqk : ∀ t ∈ s.queue, t ∈ keys
  hsupp : ∀ t, t ∉ keys → s.rowSets t = ∅
  hsub : ∀ t, s.rowSets t ⊆ U
  hsound : ∀ t i, i ∈ s.rowSets t → Reach db adj seeds t i
  hstab : ∀ t, s.enqueued t = false →
    s0.enqueued t = false ∧ s.rowSets t = s0.rowSets t
  hcnt : s.enqCount + slackG keys U s ≤ s0.enqCount + slackG keys U s0
  hnu : slackG keys U s + s.queue.length ≤
    slackG keys U s0 + s0.queue.length

theorem FoldOk.step {db : DB} {adj : String → List FkEdge}
    {seeds : String → Finset Int} {keys : List String} {U : Finset Int}
    {s0 s : BfsState} {c : String} {S : Finset Int} {e : FkEdge}
    (hPk : e.ParentTable ∈ keys) (hadj : e ∈ adj c)
    (hNU : fetchReferencedParentIDs db c e S ⊆ U)
    (hS : ∀ i ∈ S, Reach db adj seeds c i)
    (h : FoldOk db adj seeds keys U s0 s) :
    FoldOk db adj seeds keys U s0 (processEdge db c S s e) := by
  have hmono : ∀ t, s.rowSets t ⊆ (processEdge db c S s e).rowSets t :=
    processEdge_rowSets_mono db c S s e
  have hcard : ∀ t,
      (s.rowSets t).card ≤ ((processEdge db c S s e).rowSets t).card :=
    fun t => Finset.card_le_card (hmono t)
  have hsupp' : ∀ t, t ∉ keys → (processEdge db c S s e).rowSets t = ∅ := by
    intro t ht
    rw [processEdge_rowSets]
    dsimp only
    split
    case isTrue heq => exact absurd (heq ▸ hPk) ht
    case isFalse _ => exact h.hsupp t ht
  have hsub' : ∀ t, (processEdge db c S s e).rowSets t ⊆ U := by
    intro t
    rw [processEdge_rowSets]
    dsimp only
    split
    case isTrue _ => exact Finset.union_subset (h.hsub _) hNU
    case isFalse _ => exact h.hsub t
  have hsound' : ∀ t i, i ∈ (processEdge db c S s e).rowSets t →
      Reach db adj seeds t i := by
    intro t i hi
    rw [processEdge_rowSets] at hi
    dsimp only at hi
    by_cases heq : t = e.ParentTable
    · rw [if_pos heq] at hi
      subst heq
      rcases Finset.mem_union.mp hi with hold | hnew
      · exact h.hsound _ _ hold
      · rw [mem_fetchReferencedParentIDs] at hnew
        obtain ⟨r, hr, hid, hv⟩ := hnew
        exact Reach.step c r e i (hS _ hid) hr hadj hv
    · rw [if_neg heq] at hi
      exact h.hsound t i hi
  rcases processEdge_spec db c S s e with
    ⟨hq, henq, hcn, hrest⟩ | ⟨hq, henq, hcn, hns, hef⟩
  · refine ⟨?_, ?_, ?_, hsupp', hsub', hsound', ?_, ?_, ?_⟩
    · intro t; rw [hq, henq]; exact h.hqe t
    · rw [hq]; exact h.hnd
    · intro t ht; rw [hq] at ht; exact h.hqk t ht
    · intro t ht
      rw [henq] at ht
      refine ⟨(h.hstab t ht).1, ?_⟩
      rw [processEdge_rowSets]
      dsimp only
      by_cases heq : t = e.ParentTable
      · rw [if_pos heq]
        subst heq
        rcases hrest with hsub | htrue
        · rw [Finset.union_eq_left.mpr hsub]
          exact (h.hstab _ ht).2
        · rw [ht] at htrue; exact absurd htrue (by simp)
      · rw [if_neg heq]
        exact (h.hstab t ht).2
    · rw [hcn]
      have h1 := h.hcnt
      have h2 := slackG_le_of_mono keys U hcard
      omega
    · rw [hq]
      have h1 := h.hnu
      have h2 := slackG_le_of_mono keys U hcard
      omega
  · have hssub : s.rowSets e.ParentTable ⊂
        (processEdge db c S s e).rowSets e.ParentTable := by
      rw [processEdge_rowSets]
      dsimp only
      rw [if_pos rfl]
      refine Finset.ssubset_iff_subset_ne.mpr ⟨Finset.subset_union_left, ?_⟩
      intro hcontra
      exact hns (by rw [← Finset.union_eq_left]; exact hcontra.symm)
    have hdrop : slackG keys U (processEdge db c S s e) + 1 ≤
        slackG keys U s :=
      slackG_add_one_le (List.mem_toFinset.mpr hPk) hcard (hsub' _)
        (Finset.card_lt_card hssub)
    have hPnotq : e.ParentTable ∉ s.queue := by
      intro hcontra
      rw [(h.hqe _).mp hcontra] at hef
      cases hef
    refine ⟨?_, ?_, ?_, hsupp', hsub', hsound', ?_, ?_, ?_⟩
    · intro t
      rw [hq, henq]
      dsimp only
      by_cases heq : t = e.ParentTable
      · subst heq
        simp
      · rw [if_neg heq]
        rw [List.mem_append]
        constructor
        · rintro (ht | ht)
          · exact (h.hqe t).mp ht
          · exact absurd (List.mem_singleton.mp ht) heq
        · intro ht
          exact Or.inl ((h.hqe t).mpr ht)
    · rw [hq]
      rw [List.nodup_append]
      exact ⟨h.hnd, List.nodup_singleton _,
        fun t ht ht' => hPnotq ((List.mem_singleton.mp ht') ▸ ht)⟩
    · intro t ht
      rw [hq, List.mem_append] at ht
      rcases ht with ht | ht
      · exact h.hqk t ht
      · rw [List.mem_singleton.mp ht]; exact hPk
    · intro t ht
      rw [henq] at ht
      dsimp only at ht
      by_cases heq : t = e.ParentTable
      · rw [if_pos heq] at ht; cases ht
      · rw [if_neg heq] at ht
        refine ⟨(h.hstab t ht).1, ?_⟩
        rw [processEdge_rowSets]
        dsimp only
        rw [if_neg heq]
        exact (h.hstab t ht).2
    · rw [hcn]
      have h1 := h.hcnt
      have h2 := hdrop
      omega
    · rw [hq]
      rw [List.length_append]
      have h1 := h.hnu
      have h2 := hdrop
      simp only [List.length_singleton]
      omega

theorem FoldOk.fold {db : DB} {adj : String → List FkEdge}
    {seeds : String → Finset Int} {keys : List String} {U : Finset Int}
    {c : String} {S : Finset Int} :
    ∀ (edges : List FkEdge) {s0 s : BfsState},
      (∀ e ∈ edges, e.ParentTable ∈ keys ∧ e ∈ adj c ∧
        fetchReferencedParentIDs db c e S ⊆ U) →
      (∀ i ∈ S, Reach db adj seeds c i) →
      FoldOk db adj seeds keys U s0 s →
      FoldOk db adj seeds keys U s0
        (edges.foldl (processEdge db c S) s) := by
  intro edges
  induction edges with
  | nil => intro s0 s _ _ h; exact h
  | cons e es ih =>
    intro s0 s hed hS h
    rw [List.foldl_cons]
    refine ih (fun e' he' => hed e' (List.mem_cons_of_mem _ he')) hS ?_
    obtain ⟨h1, h2, h3⟩ := hed e (List.mem_cons_self _ _)
    exact h.step h1 h2 h3 hS

theorem foldPE_rowSets_mono (db : DB) (c : String) (S : Finset Int) :
    ∀ (edges : List FkEdge) (s : BfsState) (t : String),
      s.rowSets t ⊆ (edges.foldl (processEdge db c S) s).rowSets t := by
  intro edges
  induction edges with
  | nil => intro s t; exact subset_rfl
  | cons e es ih =>
    intro s t
    rw [List.foldl_cons]
    exact subset_trans (processEdge_rowSets_mono db c S s e t)
      (ih (processEdge db c S s e) t)

theorem foldPE_rowSets_other (db : DB) (c : String) (S : Finset Int) :
    ∀ (edges : List FkEdge) (s : BfsState) (t : String),
      (∀ e ∈ edges, e.ParentTable ≠ t) →
      (edges.foldl (processEdge db c S) s).rowSets t = s.rowSets t := by
  intro edges
  induction edges with
  | nil => intro s t _; rfl
  | cons e es ih =>
    intro s t hne
    rw [List.foldl_cons,
      ih _ t (fun e' he' => hne e' (List.mem_cons_of_mem _ he')),
      processEdge_rowSets]
    dsimp only
    rw [if_neg]
    intro hcontra
    exact hne e (List.mem_cons_self _ _) (hcontra ▸ rfl)

theorem foldPE_sat (db : DB) (c : String) (S : Finset Int) :
    ∀ (edges : List FkEdge) (s : BfsState) (e : FkEdge), e ∈ edges →
      fetchReferencedParentIDs db c e S ⊆
        (edges.foldl (processEdge db c S) s).rowSets e.ParentTable := by
  intro edges
  induction edges with
  | nil => intro s e he; cases he
  | cons e' es ih =>
    intro s e he
    rw [List.foldl_cons]
    rcases List.mem_cons.mp he with rfl | he
    · refine subset_trans ?_
        (foldPE_rowSets_mono db c S es (processEdge db c S s e) e.ParentTable)
      rw [processEdge_rowSets]
      dsimp only
      rw [if_pos rfl]
      exact Finset.subset_union_right
    · exact ih _ e he

theorem foldPE_queue_prefix (db : DB) (c : String) (S : Finset Int) :
    ∀ (edges : List FkEdge) (s : BfsState), ∃ q,
      (edges.foldl (processEdge db c S) s).queue = s.queue ++ q := by
  intro edges
  induction edges with
  | nil => intro s; exact ⟨[], by simp⟩
  | cons e es ih =>
    intro s
    rw [List.foldl_cons]
    obtain ⟨q, hq⟩ := ih (processEdge db c S s e)
    rcases processEdge_spec db c S s e with ⟨h1, _, _, _⟩ | ⟨h1, _, _, _⟩
    · exact ⟨q, by rw [hq, h1]⟩
    · exact ⟨[e.ParentTable] ++ q, by rw [hq, h1, List.append_assoc]⟩

/-- The invariant carried by the BFS loop between iterations. -/
structure BfsInv (db : DB) (adj : String → List FkEdge)
    (seeds : String → Finset Int) (keys : List String) (U : Finset Int)
    (s : BfsState) : Prop where
  hqe : ∀ t, t ∈ s.queue ↔ s.enqueued t = true
  hnd : s.queue.Nodup
  hqk : ∀ t ∈ s.queue, t ∈ keys
  hsupp : ∀ t, t ∉ keys → s.rowSets t = ∅
  hsub : ∀ t, s.rowSets t ⊆ U
  hseed : ∀ t, seeds t ⊆ s.rowSets t
  hsound : ∀ t i, i ∈ s.rowSets t → Reach db adj seeds t i
  hsat : ∀ c, s.enqueued c = false → ∀ e ∈ adj c,
    fetchReferencedParentIDs db c e (s.rowSets c) ⊆ s.rowSets e.ParentTable

/-- Side conditions tying the adjacency map, the key set and the id
universe together; they hold for the structures SyncPartialData builds. -/
structure BfsCtx (db : DB) (adj : String → List FkEdge)
    (keys : List String) (U : Finset Int) : Prop where
  hadjK : ∀ c e, e ∈ adj c → e.ParentTable ∈ keys
  hadjNe : ∀ c e, e ∈ adj c → e.ParentTable ≠ c
  hidsU : ∀ c ∈ keys, tableIds db c ⊆ U

theorem mem_eraseIdx_nodup {α : Type} {l : List α} (hnd : l.Nodup) {i : Nat}
    (hi : i < l.length) {t : α} :
    t ∈ l.eraseIdx i ↔ t ∈ l ∧ t ≠ l.get ⟨i, hi⟩ := by
  constructor
  · intro h
    refine ⟨(List.eraseIdx_sublist l i).subset h, ?_⟩
    rw [List.mem_eraseIdx_iff_getElem] at h
    obtain ⟨j, hj, hji, hjt⟩ := h
    intro hcontra
    apply hji
    have : l[j] = l[i] := by
      rw [hjt, hcontra]
      rfl
    exact (List.Nodup.getElem_inj_iff hnd).mp this
  · rintro ⟨ht, hne⟩
    rw [List.mem_eraseIdx_iff_getElem]
    obtain ⟨j, hj, hjt⟩ := List.getElem_of_mem ht
    refine ⟨j, hj, ?_, hjt⟩
    intro hcontra
    subst hcontra
    exact hne (hjt ▸ rfl)

theorem bfsIter_master {db : DB} {adj : String → List FkEdge}
    {seeds : String → Finset Int} {keys : List String} {U : Finset Int}
    (ctx : BfsCtx db adj keys U) {s : BfsState}
    (inv : BfsInv db adj seeds keys U s) {i : Nat}
    (hi : i < s.queue.length) {c : String} {rest : List String}
    (hc : c = s.queue.get ⟨i, hi⟩) (hrest : rest = s.queue.eraseIdx i) :
    BfsInv db adj seeds keys U (bfsIter db adj s c rest) ∧
    (∀ t, s.rowSets t ⊆ (bfsIter db adj s c rest).rowSets t) ∧
    slackG keys U (bfsIter db adj s c rest) +
      (bfsIter db adj s c rest).queue.length <
      slackG keys U s + s.queue.length ∧
    (bfsIter db adj s c rest).enqCount +
      slackG keys U (bfsIter db adj s c rest) ≤
      s.enqCount + slackG keys U s := by
  have hcq : c ∈ s.queue := by
    rw [hc]
    exact List.get_mem _ _ _
  have hcK : c ∈ keys := inv.hqk c hcq
  have hrest_mem : ∀ t, t ∈ rest ↔ t ∈ s.queue ∧ t ≠ c := by
    intro t
    rw [hrest, hc]
    exact mem_eraseIdx_nodup inv.hnd hi
  have hrest_nd : rest.Nodup :=
    hrest ▸ (List.eraseIdx_sublist s.queue i).nodup inv.hnd
  have hrest_len : rest.length = s.queue.length - 1 := by
    rw [hrest, List.length_eraseIdx, if_pos hi]
  have hlen_pos : 0 < s.queue.length := Nat.lt_of_le_of_lt (Nat.zero_le i) hi
  -- the state after the dequeue bookkeeping
  have hiter : bfsIter db adj s c rest =
      (if s.rowSets c = ∅ then
        ({ s with
            queue := rest
            enqueued := fun t => if t = c then false else s.enqueued t } :
          BfsState)
      else (adj c).foldl (processEdge db c (s.rowSets c))
        { s with
            queue := rest
            enqueued := fun t => if t = c then false else s.enqueued t }) :=
    rfl
  set s1 : BfsState :=
    { s with
        queue := rest
        enqueued := fun t => if t = c then false else s.enqueued t } with hs1
  have hqe1 : ∀ t, t ∈ s1.queue ↔ s1.enqueued t = true := by
    intro t
    show t ∈ rest ↔ (if t = c then false else s.enqueued t) = true
    rw [hrest_mem t]
    by_cases ht : t = c
    · rw [if_pos ht]
      simp [ht]
    · rw [if_neg ht, inv.hqe t]
      simp [ht]
  have hqk1 : ∀ t ∈ s1.queue, t ∈ keys := by
    intro t ht
    exact inv.hqk t ((hrest_mem t).mp ht).1
  have hslack1 : slackG keys U s1 = slackG keys U s := rfl
  rw [hiter]
  by_cases hempty : s.rowSets c = ∅
  · rw [if_pos hempty]
    refine ⟨⟨hqe1, hrest_nd, hqk1, inv.hsupp, inv.hsub, inv.hseed,
      inv.hsound, ?_⟩, fun t => subset_rfl, ?_, ?_⟩
    · intro c' hc' e he
      by_cases hcc : c' = c
      · subst hcc
        show fetchReferencedParentIDs db c' e (s.rowSets c') ⊆ s.rowSets _
        rw [hempty, fetchReferencedParentIDs_empty]
        exact Finset.empty_subset _
      · have hec : s.enqueued c' = false := by
          have h1 : (if c' = c then false else s.enqueued c') = false := hc'
          rwa [if_neg hcc] at h1
        exact inv.hsat c' hec e he
    · show slackG keys U s1 + rest.length < slackG keys U s + s.queue.length
      rw [hslack1, hrest_len]
      omega
    · show s.enqCount + slackG keys U s1 ≤ s.enqCount + slackG keys U s
      rw [hslack1]
  · rw [if_neg hempty]
    have hfold0 : FoldOk db adj seeds keys U s1 s1 :=
      ⟨hqe1, hrest_nd, hqk1, inv.hsupp, inv.hsub, inv.hsound,
        fun t ht => ⟨ht, rfl⟩, le_rfl, le_rfl⟩
    have hedges : ∀ e ∈ adj c, e.ParentTable ∈ keys ∧ e ∈ adj c ∧
        fetchReferencedParentIDs db c e (s.rowSets c) ⊆ U := by
      intro e he
      exact ⟨ctx.hadjK c e he, he,
        subset_trans (fetchReferencedParentIDs_subset_tableIds db c e _)
          (ctx.hidsU c hcK)⟩
    have hS : ∀ j ∈ s.rowSets c, Reach db adj seeds c j :=
      fun j hj => inv.hsound c j hj
    have F : FoldOk db adj seeds keys U s1
        ((adj c).foldl (processEdge db c (s.rowSets c)) s1) :=
      FoldOk.fold (adj c) hedges hS hfold0
    have hmono1 : ∀ t, s.rowSets t ⊆
        ((adj c).foldl (processEdge db c (s.rowSets c)) s1).rowSets t := by
      intro t
      exact foldPE_rowSets_mono db c (s.rowSets c) (adj c) s1 t
    have hself : ((adj c).foldl (processEdge db c (s.rowSets c)) s1).rowSets c
        = s.rowSets c := by
      exact foldPE_rowSets_other db c (s.rowSets c) (adj c) s1 c
        (fun e he => ctx.hadjNe c e he)
    refine ⟨⟨F.hqe, F.hnd, F.hqk, F.hsupp, F.hsub, ?_, F.hsound, ?_⟩,
      hmono1, ?_, ?_⟩
    · intro t
      exact subset_trans (inv.hseed t) (hmono1 t)
    · intro c' hc' e he
      by_cases hcc : c' = c
      · subst hcc
        rw [hself]
        exact foldPE_sat db c' (s.rowSets c') (adj c') s1 e he
      · obtain ⟨h1, h2⟩ := F.hstab c' hc'
        have hec : s.enqueued c' = false := by
          have h3 : (if c' = c then false else s.enqueued c') = false := h1
          rwa [if_neg hcc] at h3
        rw [h2]
        show fetchReferencedParentIDs db c' e (s.rowSets c') ⊆ _
        exact subset_trans (inv.hsat c' hec e he) (hmono1 e.ParentTable)
    · have h1 := F.hnu
      rw [hslack1] at h1
      show _ + _ < slackG keys U s + s.queue.length
      have h2 : s1.queue.length = s.queue.length - 1 := hrest_len
      omega
    · have h1 := F.hcnt
      rw [hslack1] at h1
      exact h1

theorem bfsRun_succ (db : DB) (adj : String → List FkEdge)
    (pick : BfsState → Nat) (fuel : Nat) (s : BfsState)
    (h : s.queue ≠ []) :
    bfsRun db adj pick (fuel + 1) s =
      bfsRun db adj pick fuel
        (bfsIter db adj s
          (s.queue.get ⟨pick s % s.queue.length,
            Nat.mod_lt _ (List.length_pos.mpr h)⟩)
          (s.queue.eraseIdx (pick s % s.queue.length))) := by
  rw [bfsRun]
  rw [dif_neg h]

theorem bfsIter_rowSets_mono (db : DB) (adj : String → List FkEdge)
    (s : BfsState) (c : String) (rest : List String) (t : String) :
    s.rowSets t ⊆ (bfsIter db adj s c rest).rowSets t := by
  rw [bfsIter]
  dsimp only
  split
  · exact subset_rfl
  · exact foldPE_rowSets_mono db c (s.rowSets c) (adj c)
      { s with
          queue := rest
          enqueued := fun u => if u = c then false else s.enqueued u } t

theorem bfsRun_master {db : DB} {adj : String → List FkEdge}
    {seeds : String → Finset Int} {keys : List String} {U : Finset Int}
    (ctx : BfsCtx db adj keys U) (pick : BfsState → Nat) :
    ∀ (fuel : Nat) (s : BfsState), BfsInv db adj seeds keys U s →
      BfsInv db adj seeds keys U (bfsRun db adj pick fuel s) ∧
      (∀ t, s.rowSets t ⊆ (bfsRun db adj pick fuel s).rowSets t) ∧
      (bfsRun db adj pick fuel s).enqCount +
        slackG keys U (bfsRun db adj pick fuel s) ≤
        s.enqCount + slackG keys U s ∧
      (slackG keys U s + s.queue.length < fuel →
        (bfsRun db adj pick fuel s).queue = []) := by
  intro fuel
  induction fuel with
  | zero =>
    intro s inv
    refine ⟨inv, fun t => subset_rfl, le_rfl, ?_⟩
    intro h
    cases h
  | succ fuel ih =>
    intro s inv
    by_cases hq : s.queue = []
    · rw [bfsRun, dif_pos hq]
      refine ⟨inv, fun t => subset_rfl, le_rfl, fun _ => hq⟩
    · rw [bfsRun_succ db adj pick fuel s hq]
      have hi : pick s % s.queue.length < s.queue.length :=
        Nat.mod_lt _ (List.length_pos.mpr hq)
      obtain ⟨inv', hmono', hdec', hcnt'⟩ :=
        bfsIter_master ctx inv hi rfl rfl
      obtain ⟨inv'', hmono'', hcnt'', hterm''⟩ := ih _ inv'
      refine ⟨inv'', ?_, ?_, ?_⟩
      · intro t
        exact subset_trans (hmono' t) (hmono'' t)
      · omega
      · intro hfuel
        exact hterm'' (by omega)

theorem bfsRun_rowSets_mono (db : DB) (adj : String → List FkEdge)
    (pick : BfsState → Nat) :
    ∀ (fuel : Nat) (s : BfsState) (t : String),
      s.rowSets t ⊆ (bfsRun db adj pick fuel s).rowSets t := by
  intro fuel
  induction fuel with
  | zero => intro s t; exact subset_rfl
  | succ fuel ih =>
    intro s t
    by_cases hq : s.queue = []
    · rw [bfsRun, dif_pos hq]
    · rw [bfsRun_succ db adj pick fuel s hq]
      exact subset_trans (bfsIter_rowSets_mono db adj s _ _ t) (ih _ t)

/-! Instantiation of the invariant machinery for the closure phase of
SyncPartialData. -/

theorem bfsCtx_syncPartialData (db : DB) (allFks : List ForeignKey)
    (req : List (String × Nat)) :
    BfsCtx db (childToParents allFks) (rowSetKeys allFks req)
      (allIds db allFks req) := by
  refine ⟨?_, ?_, ?_⟩
  · intro c e he
    exact (childToParents_parent_mem_keys req he).1
  · intro c e he
    exact (childToParents_parent_mem_keys req he).2
  · intro c hc
    exact tableIds_subset_allIds hc

theorem initState_inv (db : DB) (allFks : List ForeignKey)
    (req : List (String × Nat)) (hnodup : (req.map Prod.fst).Nodup) :
    BfsInv db (childToParents allFks) (seedRowSets db req)
      (rowSetKeys allFks req) (allIds db allFks req) (initState db req) := by
  refine ⟨?_, hnodup, ?_, ?_, ?_, fun t => subset_rfl, ?_, ?_⟩
  · intro t
    show t ∈ req.map Prod.fst ↔ (req.map Prod.fst).contains t = true
    rw [List.elem_iff]
  · intro t ht
    exact req_mem_rowSetKeys ht
  · intro t ht
    exact seedRowSets_eq_empty fun hmem => ht (req_mem_rowSetKeys hmem)
  · intro t
    exact seedRowSets_subset_allIds t
  · intro t i hi
    exact Reach.seed t i hi
  · intro c hcf e he
    have hcnr : c ∉ req.map Prod.fst := by
      intro hmem
      have h1 : (req.map Prod.fst).contains c = true := List.elem_iff.mpr hmem
      have h2 : (req.map Prod.fst).contains c = false := hcf
      rw [h1] at h2
      cases h2
    show fetchReferencedParentIDs db c e (seedRowSets db req c) ⊆ _
    rw [seedRowSets_eq_empty hcnr, fetchReferencedParentIDs_empty]
    exact Finset.empty_subset _

theorem closureStateWith_master (pick : BfsState → Nat) (db : DB)
    (allFks : List ForeignKey) (req : List (String × Nat))
    (hnodup : (req.map Prod.fst).Nodup) :
    BfsInv db (childToParents allFks) (seedRowSets db req)
      (rowSetKeys allFks req) (allIds db allFks req)
      (closureStateWith pick db allFks req) ∧
    (closureStateWith pick db allFks req).queue = [] ∧
    (closureStateWith pick db allFks req).enqCount ≤
      req.length + slack db allFks req (initState db req) := by
  have h := bfsRun_master
    (bfsCtx_syncPartialData db allFks req) pick (bfsFuel db allFks req)
    (initState db req) (initState_inv db allFks req hnodup)
  obtain ⟨hinv, _, hcnt, hterm⟩ := h
  have hfuel : slackG (rowSetKeys allFks req) (allIds db allFks req)
      (initState db req) + (initState db req).queue.length <
      bfsFuel db allFks req := by
    unfold bfsFuel bfsMeasure slack
    omega
  refine ⟨hinv, hterm hfuel, ?_⟩
  have hinit_cnt : (initState db req).enqCount = req.length := by
    show (req.map Prod.fst).length = req.length
    exact List.length_map _ _
  unfold slack
  unfold closureStateWith
  omega

/-- Completeness and soundness of the closure: under any dequeue
discipline, the final set of a table holds exactly the reachable row
ids. -/
theorem closureSetsWith_mem_iff (pick : BfsState → Nat) (db : DB)
    (allFks : List ForeignKey) (req : List (String × Nat))
    (hnodup : (req.map Prod.fst).Nodup) (t : String) (i : Int) :
    i ∈ closureSetsWith pick db allFks req t ↔
      Reach db (childToParents allFks) (seedRowSets db req) t i := by
  obtain ⟨hinv, hqnil, _⟩ :=
    closureStateWith_master pick db allFks req hnodup
  constructor
  · intro h
    exact hinv.hsound t i h
  · intro h
    induction h with
    | seed t i hi =>
      exact hinv.hseed t hi
    | step c r e p hr hmem he hv ih =>
      have henq : (closureStateWith pick db allFks req).enqueued c = false := by
        cases hb : (closureStateWith pick db allFks req).enqueued c
        · rfl
        · have : c ∈ (closureStateWith pick db allFks req).queue :=
            (hinv.hqe c).mpr hb
          rw [hqnil] at this
          cases this
      refine hinv.hsat c henq e he ?_
      rw [mem_fetchReferencedParentIDs]
      exact ⟨r, hmem, ih, hv⟩

/-! Characterization of one iteration of the Kahn loop. -/

theorem kahnFold_sorted (allFks : List ForeignKey) (needed : List String)
    (cur : String) :
    ∀ (l : List String) (s0 : KState),
      (l.foldl
        (fun s child =>
          if (depMap allFks needed child).contains cur then
            let d := s.inDeg child - 1
            { queue := if d = 0 then s.queue ++ [child] else s.queue
              sorted := s.sorted
              inDeg := fun t => if t = child then d else s.inDeg t }
          else s) s0).sorted = s0.sorted := by
  intro l
  induction l with
  | nil => intro s0; rfl
  | cons a l ih =>
    intro s0
    rw [List.foldl_cons, ih]
    by_cases hca : (depMap allFks needed a).contains cur
    · rw [if_pos hca]
    · rw [if_neg hca]

theorem kahnFold_inDeg (allFks : List ForeignKey) (needed : List String)
    (cur : String) :
    ∀ (l : List String), l.Nodup → ∀ (s0 : KState) (c : String),
      (l.foldl
        (fun s child =>
          if (depMap allFks needed child).contains cur then
            let d := s.inDeg child - 1
            { queue := if d = 0 then s.queue ++ [child] else s.queue
              sorted := s.sorted
              inDeg := fun t => if t = child then d else s.inDeg t }
          else s) s0).inDeg c =
      if c ∈ l ∧ (depMap allFks needed c).contains cur = true then
        s0.inDeg c - 1
      else s0.inDeg c := by
  intro l
  induction l with
  | nil =>
    intro _ s0 c
    simp
  | cons a l ih =>
    intro hnd s0 c
    have hndl : l.Nodup := hnd.of_cons
    have hanl : a ∉ l := (List.nodup_cons.mp hnd).1
    rw [List.foldl_cons, ih hndl]
    by_cases hceq : c = a
    · subst hceq
      by_cases hcc : (depMap allFks needed c).contains cur
      · have hcc2 : cur ∈ depMap allFks needed c := List.elem_iff.mp hcc
        simp [hanl, hcc, hcc2]
      · have hcc2 : cur ∉ depMap allFks needed c :=
          fun hmem => hcc (List.elem_iff.mpr hmem)
        simp [hanl, hcc, hcc2]
    · by_cases hcc : (depMap allFks needed a).contains cur
      · have hcc2 : cur ∈ depMap allFks needed a := List.elem_iff.mp hcc
        simp [hceq, hcc, hcc2]
      · have hcc2 : cur ∉ depMap allFks needed a :=
          fun hmem => hcc (List.elem_iff.mpr hmem)
        simp [hceq, hcc, hcc2]

theorem kahnFold_queue (allFks : List ForeignKey) (needed : List String)
    (cur : String) :
    ∀ (l : List String), l.Nodup → ∀ (s0 : KState) (g : String → Int),
      (∀ c ∈ l, s0.inDeg c = g c) →
      (l.foldl
        (fun s child =>
          if (depMap allFks needed child).contains cur then
            let d := s.inDeg child - 1
            { queue := if d = 0 then s.queue ++ [child] else s.queue
              sorted := s.sorted
              inDeg := fun t => if t = child then d else s.inDeg t }
          else s) s0).queue =
      s0.queue ++ l.filter
        (fun child => (depMap allFks needed child).contains cur &&
          (g child == 1)) := by
  intro l
  induction l with
  | nil =>
    intro _ s0 g _
    simp
  | cons a l ih =>
    intro hnd s0 g hg
    have hndl : l.Nodup := hnd.of_cons
    have hanl : a ∉ l := (List.nodup_cons.mp hnd).1
    have hga : s0.inDeg a = g a := hg a (List.mem_cons_self _ _)
    rw [List.foldl_cons]
    by_cases hca : (depMap allFks needed a).contains cur
    · have hstep : (if (depMap allFks needed a).contains cur then
          let d := s0.inDeg a - 1
          ({ queue := if d = 0 then s0.queue ++ [a] else s0.queue
             sorted := s0.sorted
             inDeg := fun t => if t = a then d else s0.inDeg t } : KState)
        else s0) =
          { queue := if s0.inDeg a - 1 = 0 then s0.queue ++ [a] else s0.queue
            sorted := s0.sorted
            inDeg := fun t => if t = a then s0.inDeg a - 1
              else s0.inDeg t } := by
        rw [if_pos hca]
      rw [hstep, ih hndl _ g (by
        intro c hc
        dsimp only
        rw [if_neg (fun hcontra : c = a => hanl (hcontra ▸ hc))]
        exact hg c (List.mem_cons_of_mem _ hc))]
      dsimp only
      by_cases hd : s0.inDeg a - 1 = 0
      · rw [if_pos hd]
        have hfa : ((depMap allFks needed a).contains cur &&
            (g a == 1)) = true := by
          rw [Bool.and_eq_true]
          refine ⟨hca, ?_⟩
          have h1 : g a = 1 := by omega
          simp [h1]
        rw [List.filter_cons, if_pos hfa, List.append_assoc]
        rfl
      · rw [if_neg hd]
        have hfa : ¬ ((depMap allFks needed a).contains cur &&
            (g a == 1)) = true := by
          rw [Bool.and_eq_true]
          rintro ⟨-, h1⟩
          have h2 : g a = 1 := by simpa using h1
          omega
        rw [List.filter_cons, if_neg hfa]
    · have hstep : (if (depMap allFks needed a).contains cur then
          let d := s0.inDeg a - 1
          ({ queue := if d = 0 then s0.queue ++ [a] else s0.queue
             sorted := s0.sorted
             inDeg := fun t => if t = a then d else s0.inDeg t } : KState)
        else s0) = s0 := by
        rw [if_neg hca]
      rw [hstep, ih hndl _ g (fun c hc => hg c (List.mem_cons_of_mem _ hc))]
      have hfa : ¬ ((depMap allFks needed a).contains cur &&
          (g a == 1)) = true := by
        rw [Bool.and_eq_true]
        rintro ⟨h1, -⟩
        exact hca h1
      rw [List.filter_cons, if_neg hfa]

theorem kahnIter_sorted (allFks : List ForeignKey) (needed : List String)
    (s : KState) (cur : String) (rest : List String) :
    (kahnIter allFks needed s cur rest).sorted = s.sorted ++ [cur] := by
  unfold kahnIter
  rw [kahnFold_sorted]

theorem kahnIter_inDeg (allFks : List ForeignKey) {needed : List String}
    (hnd : needed.Nodup) (s : KState) (cur : String) (rest : List String)
    (c : String) :
    (kahnIter allFks needed s cur rest).inDeg c =
      if c ∈ needed ∧ (depMap allFks needed c).contains cur = true then
        s.inDeg c - 1
      else s.inDeg c := by
  unfold kahnIter
  rw [kahnFold_inDeg allFks needed cur needed hnd]

theorem kahnIter_queue (allFks : List ForeignKey) {needed : List String}
    (hnd : needed.Nodup) (s : KState) (cur : String) (rest : List String) :
    (kahnIter allFks needed s cur rest).queue =
      rest ++ needed.filter
        (fun child => (depMap allFks needed child).contains cur &&
          (s.inDeg child == 1)) := by
  unfold kahnIter
  rw [kahnFold_queue allFks needed cur needed hnd
    { queue := rest, sorted := s.sorted ++ [cur], inDeg := s.inDeg }
    s.inDeg (fun c _ => rfl)]

theorem mem_depMap {allFks : List ForeignKey} {needed : List String}
    {c p : String} :
    p ∈ depMap allFks needed c ↔
      ∃ fk ∈ allFks, fk.FromTable ≠ fk.ToTable ∧ fk.FromTable ∈ needed ∧
        fk.ToTable ∈ needed ∧ fk.IsNullable = false ∧ fk.FromTable = c ∧
        fk.ToTable = p := by
  unfold depMap
  rw [List.mem_map]
  constructor
  · rintro ⟨fk, hfk, rfl⟩
    rw [List.mem_filter] at hfk
    obtain ⟨hmem, hcond⟩ := hfk
    simp only [Bool.and_eq_true, bne_iff_ne, Bool.not_eq_true',
      beq_iff_eq, List.elem_iff] at hcond
    exact ⟨fk, hmem, hcond.1.1.1.1, hcond.1.1.1.2, hcond.1.1.2, hcond.1.2,
      hcond.2, rfl⟩
  · rintro ⟨fk, hmem, hne, hfrom, hto, hnul, hc, rfl⟩
    refine ⟨fk, List.mem_filter.mpr ⟨hmem, ?_⟩, rfl⟩
    simp only [Bool.and_eq_true, bne_iff_ne, Bool.not_eq_true',
      beq_iff_eq, List.elem_iff]
    exact ⟨⟨⟨⟨hne, hfrom⟩, hto⟩, hnul⟩, hc⟩

theorem depMap_subset_needed {allFks : List ForeignKey}
    {needed : List String} {c p : String}
    (h : p ∈ depMap allFks needed c) : p ∈ needed := by
  rw [mem_depMap] at h
  obtain ⟨fk, _, _, _, hto, _, _, rfl⟩ := h
  exact hto

theorem depMap_eq_nil_of_not_mem {allFks : List ForeignKey}
    {needed : List String} {c : String} (hc : c ∉ needed) :
    depMap allFks needed c = [] := by
  by_cases h : depMap allFks needed c = []
  · exact h
  · obtain ⟨p, hp⟩ := List.exists_mem_of_ne_nil _ h
    rw [mem_depMap] at hp
    obtain ⟨fk, _, _, hfrom, _, _, hcc, _⟩ := hp
    exact absurd (hcc ▸ hfrom) hc

theorem filter_dedup_analysis {l sorted : List String}
    (h : ((l.dedup.filter (fun p => sorted.contains p)).length : Int) =
      (l.length : Int)) :
    l.Nodup ∧ ∀ p ∈ l, p ∈ sorted := by
  have h1 : (l.dedup.filter (fun p => sorted.contains p)).length =
      l.length := by exact_mod_cast h
  have h2 : (l.dedup.filter (fun p => sorted.contains p)).length ≤
      l.dedup.length := (List.filter_sublist _).length_le
  have h3 : l.dedup.length ≤ l.length := (List.dedup_sublist l).length_le
  have h4 : l.dedup.length = l.length := by omega
  have h5 : l.dedup = l := (List.dedup_sublist l).eq_of_length h4
  have hnd : l.Nodup := by
    rw [← h5]
    exact List.nodup_dedup l
  rw [h5] at h1
  have h7 : l.filter (fun p => sorted.contains p) = l :=
    (List.filter_sublist l).eq_of_length h1
  refine ⟨hnd, fun p hp => ?_⟩
  have hp2 : p ∈ l.filter (fun p => sorted.contains p) := by
    rw [h7]
    exact hp
  exact List.elem_iff.mp (List.mem_filter.mp hp2).2

theorem filter_contains_append_singleton {l sorted : List String}
    {x : String} (hnd : l.Nodup) (hx : x ∉ sorted) :
    ((l.filter (fun p => (sorted ++ [x]).contains p)).length : Int) =
      (l.filter (fun p => sorted.contains p)).length +
        (if x ∈ l then 1 else 0) := by
  induction l with
  | nil => simp
  | cons a l ih =>
    have hndl : l.Nodup := hnd.of_cons
    have hanl : a ∉ l := (List.nodup_cons.mp hnd).1
    have hthis := ih hndl
    by_cases hax : a = x
    · subst hax
      have hc1 : ((sorted ++ [a]).contains a) = true :=
        List.elem_iff.mpr (List.mem_append_right _ (List.mem_singleton.mpr rfl))
      have hc2 : (sorted.contains a) = false := by
        cases hb : sorted.contains a
        · rfl
        · exact absurd (List.elem_iff.mp hb) hx
      rw [List.filter_cons, List.filter_cons, hc1, hc2]
      rw [if_pos (rfl : true = true)]
      rw [if_neg (by simp : ¬ (false = true))]
      rw [if_pos (List.mem_cons_self a l)]
      rw [if_neg hanl] at hthis
      simp only [List.length_cons]
      push_cast
      omega
    · have hmemiff : (x ∈ a :: l) ↔ (x ∈ l) := by
        rw [List.mem_cons]
        constructor
        · rintro (h1 | h1)
          · exact absurd h1.symm hax
          · exact h1
        · exact Or.inr
      have hceq : ((sorted ++ [x]).contains a) = (sorted.contains a) := by
        by_cases hmem : a ∈ sorted
        · have h1 : (sorted.contains a) = true := List.elem_iff.mpr hmem
          have h2 : ((sorted ++ [x]).contains a) = true :=
            List.elem_iff.mpr (List.mem_append_left _ hmem)
          rw [h1, h2]
        · have h1 : (sorted.contains a) = false := by
            cases hb : sorted.contains a
            · rfl
            · exact absurd (List.elem_iff.mp hb) hmem
          have h2 : ((sorted ++ [x]).contains a) = false := by
            cases hb : (sorted ++ [x]).contains a
            · rfl
            · rcases List.mem_append.mp (List.elem_iff.mp hb) with h3 | h3
              · exact absurd h3 hmem
              · exact absurd (List.mem_singleton.mp h3) hax
          rw [h1, h2]
      rw [List.filter_cons, List.filter_cons, hceq]
      cases hb : sorted.contains a
      · simp only [Bool.false_eq_true, if_false]
        rw [if_congr hmemiff rfl rfl]
        exact hthis
      · rw [if_pos (rfl : true = true), if_pos (rfl : true = true)]
        rw [if_congr hmemiff rfl rfl]
        simp only [List.length_cons]
        push_cast
        push_cast at hthis
        omega

/-- Invariant of the Kahn loop of partialTopoSort. -/
structure KInv (allFks : List ForeignKey) (needed : List String)
    (s : KState) : Prop where
  hqs : ∀ t ∈ s.queue, t ∈ needed
  hss : ∀ t ∈ s.sorted, t ∈ needed
  hqnd : s.queue.Nodup
  hsnd : s.sorted.Nodup
  hdisj : ∀ t ∈ s.queue, t ∉ s.sorted
  hdeg : ∀ c, s.inDeg c = ((depMap allFks needed c).length : Int) -
    (((depMap allFks needed c).dedup.filter
      (fun p => s.sorted.contains p)).length : Int)
  hzero : ∀ c, c ∈ s.queue ∨ c ∈ s.sorted → s.inDeg c = 0
  hord : ∀ (n : Nat) (h : n < s.sorted.length),
    ∀ p ∈ depMap allFks needed (s.sorted.get ⟨n, h⟩), p ∈ s.sorted.take n
  hnz : ∀ c ∈ needed, c ∉ s.queue → c ∉ s.sorted → s.inDeg c ≠ 0

theorem KInv.zero_sorted {allFks : List ForeignKey} {needed : List String}
    {s : KState} (inv : KInv allFks needed s) {c : String}
    (h0 : s.inDeg c = 0) :
    (depMap allFks needed c).Nodup ∧
      ∀ p ∈ depMap allFks needed c, p ∈ s.sorted := by
  have hd := inv.hdeg c
  rw [h0] at hd
  exact filter_dedup_analysis (by omega)

theorem kahnInit_KInv (allFks : List ForeignKey) {needed : List String}
    (hndN : needed.Nodup) : KInv allFks needed (kahnInit allFks needed) := by
  have hqchar : ∀ c, c ∈ (kahnInit allFks needed).queue ↔
      c ∈ needed ∧ inDegree0 allFks needed c = 0 := by
    intro c
    show c ∈ needed.filter _ ↔ _
    rw [List.mem_filter]
    constructor
    · rintro ⟨h1, h2⟩
      refine ⟨h1, ?_⟩
      have := of_decide_eq_true (by exact_mod_cast h2)
      exact this
    · rintro ⟨h1, h2⟩
      refine ⟨h1, ?_⟩
      simp [h2]
  refine ⟨?_, ?_, ?_, ?_, ?_, ?_, ?_, ?_, ?_⟩
  · intro t ht
    exact ((hqchar t).mp ht).1
  · intro t ht
    cases ht
  · exact hndN.filter _
  · exact List.nodup_nil
  · intro t _ hcontra
    cases hcontra
  · intro c
    have hfilter : ((depMap allFks needed c).dedup.filter
        (fun p => (([] : List String)).contains p)) = [] := by
      apply List.eq_nil_iff_forall_not_mem.mpr
      intro p hp
      rw [List.mem_filter] at hp
      have := List.elem_iff.mp hp.2
      cases this
    show inDegree0 allFks needed c =
      ((depMap allFks needed c).length : Int) -
        (((depMap allFks needed c).dedup.filter
          (fun p => (([] : List String)).contains p)).length : Int)
    rw [hfilter]
    unfold inDegree0
    simp
  · intro c hc
    rcases hc with hc | hc
    · exact ((hqchar c).mp hc).2
    · cases hc
  · intro n h
    cases h
  · intro c hc hnq _
    intro hcontra
    apply hnq
    rw [hqchar c]
    exact ⟨hc, hcontra⟩

theorem depMap_child_mem {allFks : List ForeignKey} {needed : List String}
    {c p : String} (h : p ∈ depMap allFks needed c) : c ∈ needed := by
  rw [mem_depMap] at h
  obtain ⟨fk, _, _, hfrom, _, _, hcc, _⟩ := h
  exact hcc ▸ hfrom

theorem kahnIter_KInv {allFks : List ForeignKey} {needed : List String}
    (hndN : needed.Nodup) {s : KState} (inv : KInv allFks needed s)
    {cur : String} {rest : List String} (hq : s.queue = cur :: rest) :
    KInv allFks needed (kahnIter allFks needed s cur rest) := by
  have hcurq : cur ∈ s.queue := by
    rw [hq]
    exact List.mem_cons_self _ _
  have hcurn : cur ∈ needed := inv.hqs cur hcurq
  have hcurs : cur ∉ s.sorted := inv.hdisj cur hcurq
  have hcur0 : s.inDeg cur = 0 := inv.hzero cur (Or.inl hcurq)
  have hcur_par := inv.zero_sorted hcur0
  have hrest_sub : ∀ t ∈ rest, t ∈ s.queue := by
    intro t ht
    rw [hq]
    exact List.mem_cons_of_mem _ ht
  have hqnd2 : (cur :: rest).Nodup := hq ▸ inv.hqnd
  have hrest_nd : rest.Nodup := hqnd2.of_cons
  have hcur_rest : cur ∉ rest := (List.nodup_cons.mp hqnd2).1
  have hsorted2 := kahnIter_sorted allFks needed s cur rest
  have hdeg2 := kahnIter_inDeg allFks hndN s cur rest
  have hqueue2 := kahnIter_queue allFks hndN s cur rest
  have hnewly : ∀ c, c ∈ needed.filter
      (fun child => (depMap allFks needed child).contains cur &&
        (s.inDeg child == 1)) ↔
      c ∈ needed ∧ cur ∈ depMap allFks needed c ∧ s.inDeg c = 1 := by
    intro c
    rw [List.mem_filter]
    constructor
    · rintro ⟨h1, h2⟩
      rw [Bool.and_eq_true] at h2
      exact ⟨h1, List.elem_iff.mp h2.1, beq_iff_eq.mp h2.2⟩
    · rintro ⟨h1, h2, h3⟩
      refine ⟨h1, ?_⟩
      rw [Bool.and_eq_true]
      exact ⟨List.elem_iff.mpr h2, beq_iff_eq.mpr h3⟩
  have hnewly_not : ∀ c, c ∈ needed.filter
      (fun child => (depMap allFks needed child).contains cur &&
        (s.inDeg child == 1)) →
      c ∉ s.queue ∧ c ∉ s.sorted := by
    intro c hc
    obtain ⟨_, _, h1⟩ := (hnewly c).mp hc
    constructor
    · intro hcontra
      rw [inv.hzero c (Or.inl hcontra)] at h1
      cases h1
    · intro hcontra
      rw [inv.hzero c (Or.inr hcontra)] at h1
      cases h1
  have hguard_needed : ∀ c, (depMap allFks needed c).contains cur = true →
      c ∈ needed := by
    intro c h
    exact depMap_child_mem (List.elem_iff.mp h)
  have hnotdec : ∀ c, s.inDeg c = 0 →
      ¬ (c ∈ needed ∧ (depMap allFks needed c).contains cur = true) := by
    rintro c h0 ⟨-, hcont⟩
    have hmem : cur ∈ depMap allFks needed c := List.elem_iff.mp hcont
    exact hcurs ((inv.zero_sorted h0).2 cur hmem)
  have hdcount : ∀ c, (((depMap allFks needed c).dedup.filter
      (fun p => (s.sorted ++ [cur]).contains p)).length : Int) =
      ((depMap allFks needed c).dedup.filter
        (fun p => s.sorted.contains p)).length +
        (if cur ∈ depMap allFks needed c then 1 else 0) := by
    intro c
    rw [filter_contains_append_singleton (List.nodup_dedup _) hcurs]
    by_cases hmem : cur ∈ depMap allFks needed c
    · rw [if_pos hmem, if_pos (List.mem_dedup.mpr hmem)]
    · rw [if_neg hmem, if_neg (fun h => hmem (List.mem_dedup.mp h))]
  refine ⟨?_, ?_, ?_, ?_, ?_, ?_, ?_, ?_, ?_⟩
  · intro t ht
    rw [hqueue2, List.mem_append] at ht
    rcases ht with ht | ht
    · exact inv.hqs t (hrest_sub t ht)
    · exact ((hnewly t).mp ht).1
  · intro t ht
    rw [hsorted2, List.mem_append] at ht
    rcases ht with ht | ht
    · exact inv.hss t ht
    · rw [List.mem_singleton.mp ht]
      exact hcurn
  · rw [hqueue2, List.nodup_append]
    refine ⟨hrest_nd, hndN.filter _, ?_⟩
    intro t ht ht'
    exact (hnewly_not t ht').1 (hrest_sub t ht)
  · rw [hsorted2, List.nodup_append]
    refine ⟨inv.hsnd, List.nodup_singleton _, ?_⟩
    intro t ht ht'
    rw [List.mem_singleton.mp ht'] at ht
    exact hcurs ht
  · intro t ht
    rw [hqueue2, List.mem_append] at ht
    rw [hsorted2, List.mem_append]
    rintro (hcontra | hcontra)
    · rcases ht with ht | ht
      · exact inv.hdisj t (hrest_sub t ht) hcontra
      · exact (hnewly_not t ht).2 hcontra
    · have htc : t = cur := List.mem_singleton.mp hcontra
      subst htc
      rcases ht with ht | ht
      · exact hcur_rest ht
      · exact (hnewly_not t ht).1 hcurq
  · intro c
    rw [hdeg2 c, hsorted2]
    have hd := hdcount c
    have hbase := inv.hdeg c
    by_cases hguard : c ∈ needed ∧
        (depMap allFks needed c).contains cur = true
    · rw [if_pos hguard]
      have hmem : cur ∈ depMap allFks needed c :=
        List.elem_iff.mp hguard.2
      rw [if_pos hmem] at hd
      omega
    · rw [if_neg hguard]
      have hmem : cur ∉ depMap allFks needed c := by
        intro hcontra
        exact hguard ⟨depMap_child_mem hcontra, List.elem_iff.mpr hcontra⟩
      rw [if_neg hmem] at hd
      omega
  · intro c hc
    rcases hc with hc | hc
    · rw [hqueue2, List.mem_append] at hc
      rcases hc with hc | hc
      · have h0 : s.inDeg c = 0 :=
          inv.hzero c (Or.inl (hrest_sub c hc))
        rw [hdeg2 c, if_neg (hnotdec c h0)]
        exact h0
      · obtain ⟨h1, h2, h3⟩ := (hnewly c).mp hc
        rw [hdeg2 c, if_pos ⟨h1, List.elem_iff.mpr h2⟩, h3]
        rfl
    · rw [hsorted2, List.mem_append] at hc
      rcases hc with hc | hc
      · have h0 : s.inDeg c = 0 := inv.hzero c (Or.inr hc)
        rw [hdeg2 c, if_neg (hnotdec c h0)]
        exact h0
      · have hcc : c = cur := List.mem_singleton.mp hc
        subst hcc
        rw [hdeg2 c, if_neg (hnotdec c hcur0)]
        exact hcur0
  · intro n h p hp
    have hlen : n < s.sorted.length + 1 := by
      have := h
      rw [hsorted2, List.length_append, List.length_singleton] at this
      exact this
    rw [List.get_of_eq hsorted2 ⟨n, h⟩] at hp
    simp only [List.get_eq_getElem, Fin.coe_cast] at hp
    by_cases hn : n < s.sorted.length
    · rw [List.getElem_append_left hn] at hp
      rw [hsorted2, List.take_append_of_le_length (le_of_lt hn)]
      refine inv.hord n hn p ?_
      rw [List.get_eq_getElem]
      exact hp
    · have hn2 : n = s.sorted.length := by omega
      subst hn2
      rw [List.getElem_append_right (le_refl _)] at hp
      simp only [Nat.sub_self, List.getElem_cons_zero] at hp
      rw [hsorted2, List.take_left]
      exact hcur_par.2 p hp
  · intro c hcn hnq hns
    rw [hqueue2] at hnq
    rw [hsorted2] at hns
    have hnrest : c ∉ rest := fun h => hnq (List.mem_append_left _ h)
    have hnnew : c ∉ needed.filter
        (fun child => (depMap allFks needed child).contains cur &&
          (s.inDeg child == 1)) := fun h => hnq (List.mem_append_right _ h)
    have hnsort : c ∉ s.sorted := fun h => hns (List.mem_append_left _ h)
    have hncur : c ≠ cur := by
      intro hcontra
      exact hns (List.mem_append_right _
        (List.mem_singleton.mpr hcontra))
    have hnq2 : c ∉ s.queue := by
      rw [hq]
      intro hcontra
      rcases List.mem_cons.mp hcontra with h1 | h1
      · exact hncur h1
      · exact hnrest h1
    have hnz0 : s.inDeg c ≠ 0 := inv.hnz c hcn hnq2 hnsort
    rw [hdeg2 c]
    by_cases hguard : c ∈ needed ∧
        (depMap allFks needed c).contains cur = true
    · rw [if_pos hguard]
      intro hcontra
      have h1 : s.inDeg c = 1 := by omega
      exact hnnew ((hnewly c).mpr
        ⟨hcn, List.elem_iff.mp hguard.2, h1⟩)
    · rw [if_neg hguard]
      exact hnz0

theorem kahnRun_succ_nil {allFks : List ForeignKey} {needed : List String}
    {fuel : Nat} {s : KState} (h : s.queue = []) :
    kahnRun allFks needed (fuel + 1) s = s := by
  rw [kahnRun, h]

theorem kahnRun_succ_cons {allFks : List ForeignKey} {needed : List String}
    {fuel : Nat} {s : KState} {cur : String} {rest : List String}
    (h : s.queue = cur :: rest) :
    kahnRun allFks needed (fuel + 1) s =
      kahnRun allFks needed fuel (kahnIter allFks needed s cur rest) := by
  rw [kahnRun, h]

theorem KInv.sorted_lt {allFks : List ForeignKey} {needed : List String}
    (hndN : needed.Nodup) {s : KState} (inv : KInv allFks needed s)
    {cur : String} {rest : List String} (hq : s.queue = cur :: rest) :
    s.sorted.length < needed.length := by
  have hcurq : cur ∈ s.queue := by
    rw [hq]
    exact List.mem_cons_self _ _
  have h1 : insert cur s.sorted.toFinset ⊆ needed.toFinset := by
    intro t ht
    rcases Finset.mem_insert.mp ht with rfl | ht
    · exact List.mem_toFinset.mpr (inv.hqs _ hcurq)
    · exact List.mem_toFinset.mpr (inv.hss _ (List.mem_toFinset.mp ht))
  have h2 : (insert cur s.sorted.toFinset).card = s.sorted.length + 1 := by
    rw [Finset.card_insert_of_not_mem
      (fun h => (inv.hdisj cur hcurq) (List.mem_toFinset.mp h))]
    rw [List.toFinset_card_of_nodup inv.hsnd]
  have h3 := Finset.card_le_card h1
  rw [h2, List.toFinset_card_of_nodup hndN] at h3
  omega

theorem kahnRun_master {allFks : List ForeignKey} {needed : List String}
    (hndN : needed.Nodup) :
    ∀ (fuel : Nat) (s : KState), KInv allFks needed s →
      KInv allFks needed (kahnRun allFks needed fuel s) ∧
      (needed.length - s.sorted.length ≤ fuel →
        (kahnRun allFks needed fuel s).queue = []) := by
  intro fuel
  induction fuel with
  | zero =>
    intro s inv
    refine ⟨inv, ?_⟩
    intro hle
    cases hq : s.queue with
    | nil =>
      show s.queue = []
      exact hq
    | cons cur rest =>
      have := inv.sorted_lt hndN hq
      omega
  | succ fuel ih =>
    intro s inv
    cases hq : s.queue with
    | nil =>
      rw [kahnRun_succ_nil hq]
      exact ⟨inv, fun _ => hq⟩
    | cons cur rest =>
      rw [kahnRun_succ_cons hq]
      have inv' := kahnIter_KInv hndN inv hq
      obtain ⟨hfin, hterm⟩ := ih _ inv'
      refine ⟨hfin, ?_⟩
      intro hle
      refine hterm ?_
      have hlen : (kahnIter allFks needed s cur rest).sorted.length =
          s.sorted.length + 1 := by
        rw [kahnIter_sorted, List.length_append, List.length_singleton]
      have := inv.sorted_lt hndN hq
      omega

theorem kahnFinal_facts (allFks : List ForeignKey) {needed : List String}
    (hndN : needed.Nodup) :
    KInv allFks needed
      (kahnRun allFks needed needed.length (kahnInit allFks needed)) ∧
    (kahnRun allFks needed needed.length
      (kahnInit allFks needed)).queue = [] := by
  have h := kahnRun_master hndN needed.length (kahnInit allFks needed)
    (kahnInit_KInv allFks hndN)
  exact ⟨h.1, h.2 (by
    show needed.length - ([] : List String).length ≤ needed.length
    simp)⟩

theorem partialTopoSort_ok_out {allFks : List ForeignKey}
    {needed : List String} {out : List String}
    (hok : partialTopoSort allFks needed = Except.ok out) :
    out = (kahnRun allFks needed needed.length
      (kahnInit allFks needed)).sorted ∧
    (kahnRun allFks needed needed.length
      (kahnInit allFks needed)).sorted.length = needed.length := by
  unfold partialTopoSort at hok
  by_cases hlen : (kahnRun allFks needed needed.length
      (kahnInit allFks needed)).sorted.length = needed.length
  · rw [if_pos hlen] at hok
    injection hok with hok
    exact ⟨hok.symm, hlen⟩
  · rw [if_neg hlen] at hok
    cases hok

theorem partialTopoSort_ok_facts {allFks : List ForeignKey}
    {needed : List String} (hndN : needed.Nodup) {out : List String}
    (hok : partialTopoSort allFks needed = Except.ok out) :
    out.Nodup ∧ (∀ t, t ∈ out ↔ t ∈ needed) ∧
      (∀ (n : Nat) (h : n < out.length),
        ∀ p ∈ depMap allFks needed (out.get ⟨n, h⟩), p ∈ out.take n) := by
  obtain ⟨hout, hlen⟩ := partialTopoSort_ok_out hok
  obtain ⟨hfin, _⟩ := kahnFinal_facts allFks hndN
  subst hout
  refine ⟨hfin.hsnd, ?_, hfin.hord⟩
  have hsub : (kahnRun allFks needed needed.length
      (kahnInit allFks needed)).sorted.toFinset ⊆ needed.toFinset := by
    intro t ht
    exact List.mem_toFinset.mpr (hfin.hss t (List.mem_toFinset.mp ht))
  have hcards : needed.toFinset.card ≤
      (kahnRun allFks needed needed.length
        (kahnInit allFks needed)).sorted.toFinset.card := by
    rw [List.toFinset_card_of_nodup hndN,
      List.toFinset_card_of_nodup hfin.hsnd, hlen]
  have heq := Finset.eq_of_subset_of_card_le hsub hcards
  intro t
  rw [← List.mem_toFinset, ← List.mem_toFinset, heq]

theorem partialTopoSort_ok_iff {allFks : List ForeignKey}
    {needed : List String} (hndN : needed.Nodup) :
    (∃ out, partialTopoSort allFks needed = Except.ok out) ↔
      ((∀ c ∈ needed, (depMap allFks needed c).Nodup) ∧
        KahnNoCycle allFks needed) := by
  obtain ⟨hfin, hqnil⟩ := kahnFinal_facts allFks hndN
  constructor
  · rintro ⟨out, hok⟩
    obtain ⟨hnd_out, hmem_out, hord_out⟩ := partialTopoSort_ok_facts hndN hok
    constructor
    · intro c hc
      have hcout : c ∈ out := (hmem_out c).mpr hc
      obtain ⟨hout, _⟩ := partialTopoSort_ok_out hok
      have h0 : (kahnRun allFks needed needed.length
          (kahnInit allFks needed)).inDeg c = 0 :=
        hfin.hzero c (Or.inr (hout ▸ hcout))
      exact (hfin.zero_sorted h0).1
    · intro S hS hSne
      by_contra hcontra
      push_neg at hcontra
      have hstep : ∀ c ∈ S, ∃ p ∈ depMap allFks needed c, p ∈ S := by
        intro c hc
        obtain ⟨p, hp1, hp2⟩ := hcontra c hc
        exact ⟨p, hp1, hp2⟩
      have hmain : ∀ n, ∀ (h : n < out.length), out.get ⟨n, h⟩ ∉ S := by
        intro n
        induction n using Nat.strong_induction_on with
        | _ n ih =>
          intro h hmem
          obtain ⟨p, hp1, hp2⟩ := hstep _ hmem
          have hp3 : p ∈ out.take n := hord_out n h p hp1
          rw [List.mem_take_iff_getElem] at hp3
          obtain ⟨m, hm, hmp⟩ := hp3
          have hm1 : m < n := lt_of_lt_of_le hm (min_le_left _ _)
          have hm2 : m < out.length := lt_of_lt_of_le hm (min_le_right _ _)
          refine ih m hm1 hm2 ?_
          rw [List.get_eq_getElem]
          rw [hmp]
          exact hp2
      obtain ⟨x, hx⟩ := hSne
      have hxn : x ∈ needed :=
        List.mem_toFinset.mp (Finset.mem_powerset.mp hS hx)
      have hxo : x ∈ out := (hmem_out x).mpr hxn
      obtain ⟨m, hm, hmp⟩ := List.getElem_of_mem hxo
      refine hmain m hm ?_
      rw [List.get_eq_getElem, hmp]
      exact hx
  · rintro ⟨hdm, hnc⟩
    unfold partialTopoSort
    by_cases hlen : (kahnRun allFks needed needed.length
        (kahnInit allFks needed)).sorted.length = needed.length
    · exact ⟨_, by rw [if_pos hlen]⟩
    · exfalso
      set final := kahnRun allFks needed needed.length
        (kahnInit allFks needed) with hfinal
      have hsub : final.sorted.toFinset ⊆ needed.toFinset := by
        intro t ht
        exact List.mem_toFinset.mpr (hfin.hss t (List.mem_toFinset.mp ht))
      have hltlen : final.sorted.length < needed.length := by
        have h1 := Finset.card_le_card hsub
        rw [List.toFinset_card_of_nodup hndN,
          List.toFinset_card_of_nodup hfin.hsnd] at h1
        omega
      set S := needed.toFinset \ final.sorted.toFinset with hSdef
      have hSne : S.Nonempty := by
        rw [hSdef]
        have h1 : (needed.toFinset \ final.sorted.toFinset).card =
            needed.toFinset.card - final.sorted.toFinset.card :=
          Finset.card_sdiff hsub
        rw [List.toFinset_card_of_nodup hndN,
          List.toFinset_card_of_nodup hfin.hsnd] at h1
        rw [← Finset.card_pos, h1]
        omega
      have hSpow : S ∈ needed.toFinset.powerset :=
        Finset.mem_powerset.mpr (Finset.sdiff_subset)
      obtain ⟨c, hcS, hcnp⟩ := hnc S hSpow hSne
      have hcn : c ∈ needed :=
        List.mem_toFinset.mp (Finset.mem_sdiff.mp hcS).1
      have hcs : c ∉ final.sorted := by
        intro hcontra
        exact (Finset.mem_sdiff.mp hcS).2 (List.mem_toFinset.mpr hcontra)
      have hnz : final.inDeg c ≠ 0 :=
        hfin.hnz c hcn (by rw [hqnil]; exact List.not_mem_nil c) hcs
      have hdd : (depMap allFks needed c).dedup = depMap allFks needed c :=
        List.dedup_eq_self.mpr (hdm c hcn)
      have hdeg := hfin.hdeg c
      rw [hdd] at hdeg
      have hflt : ((depMap allFks needed c).filter
          (fun p => final.sorted.contains p)).length ≠
          (depMap allFks needed c).length := by
        intro hcontra
        rw [hcontra] at hdeg
        omega
      have hex : ∃ p ∈ depMap allFks needed c, p ∉ final.sorted := by
        by_contra hcontra2
        push_neg at hcontra2
        refine hflt ?_
        rw [List.filter_eq_self.mpr]
        intro p hp
        exact List.elem_iff.mpr (hcontra2 p hp)
      obtain ⟨p, hp1, hp2⟩ := hex
      refine hcnp p hp1 ?_
      rw [hSdef, Finset.mem_sdiff]
      exact ⟨List.mem_toFinset.mpr (depMap_subset_needed hp1),
        fun h => hp2 (List.mem_toFinset.mp h)⟩

/-! Lemmas about the copy phase, towards idempotence of a reset run. -/

/-- The loop body of the copy phase, named for the proofs. -/
def copyStep (db : DB) (resetTables : Bool)
    (rowSets : String → Finset Int) (d : Dest) (table : String) : Dest :=
  let idSet := rowSets table
  if idSet = ∅ then d
  else
    let d1 := if resetTables then truncateTable d table else d
    insertRows d1 table (fetchRowsByIDs db table idSet)

theorem copyTables_eq_foldl (db : DB) (resetTables : Bool)
    (rowSets : String → Finset Int) (sorted : List String) (d : Dest) :
    copyTables db resetTables rowSets sorted d =
      sorted.foldl (copyStep db resetTables rowSets) d := rfl

theorem copyStep_empty (db : DB) (r : Bool) (rs : String → Finset Int)
    (d : Dest) (t : String) (h : rs t = ∅) : copyStep db r rs d t = d := by
  unfold copyStep
  rw [if_pos h]

theorem copyStep_char (db : DB) (rs : String → Finset Int) (d : Dest)
    (t : String) (h : ¬ rs t = ∅) :
    copyStep db true rs d t =
      fun x => if x = t then fetchRowsByIDs db t (rs t) else d x := by
  unfold copyStep
  rw [if_neg h]
  funext x
  show insertRows (truncateTable d t) t (fetchRowsByIDs db t (rs t)) x = _
  unfold insertRows truncateTable
  by_cases hx : x = t
  · rw [if_pos hx, if_pos hx, if_pos hx]
    rfl
  · rw [if_neg hx, if_neg hx, if_neg hx]

theorem copyStep_comm (db : DB) (rs : String → Finset Int) {t u : String}
    (hne : t ≠ u) (d : Dest) :
    copyStep db true rs (copyStep db true rs d u) t =
      copyStep db true rs (copyStep db true rs d t) u := by
  by_cases ht : rs t = ∅
  · rw [copyStep_empty db true rs _ t ht, copyStep_empty db true rs d t ht]
  · by_cases hu : rs u = ∅
    · rw [copyStep_empty db true rs d u hu, copyStep_empty db true rs _ u hu]
    · rw [copyStep_char db rs _ t ht, copyStep_char db rs d u hu,
        copyStep_char db rs _ u hu, copyStep_char db rs d t ht]
      funext x
      dsimp only
      by_cases hx : x = t
      · have hxu : ¬ x = u := by
          intro h
          exact hne (by rw [← hx, h])
        rw [if_pos hx, if_neg hxu, if_pos hx]
      · rw [if_neg hx]
        by_cases hxu : x = u
        · rw [if_pos hxu, if_pos hxu]
        · rw [if_neg hxu, if_neg hxu, if_neg hx]

theorem copyStep_idem (db : DB) (rs : String → Finset Int) (t : String)
    (d : Dest) :
    copyStep db true rs (copyStep db true rs d t) t =
      copyStep db true rs d t := by
  by_cases ht : rs t = ∅
  · rw [copyStep_empty db true rs _ t ht, copyStep_empty db true rs d t ht]
  · rw [copyStep_char db rs d t ht, copyStep_char db rs _ t ht]
    funext x
    dsimp only
    by_cases hx : x = t
    · rw [if_pos hx, if_pos hx]
    · rw [if_neg hx, if_neg hx]

theorem copyStep_fold_comm (db : DB) (rs : String → Finset Int) :
    ∀ (l : List String) (t : String), t ∉ l → ∀ d : Dest,
      copyStep db true rs (l.foldl (copyStep db true rs) d) t =
        l.foldl (copyStep db true rs) (copyStep db true rs d t) := by
  intro l
  induction l with
  | nil => intro t _ d; rfl
  | cons u l ih =>
    intro t ht d
    have htu : t ≠ u := fun h => ht (h ▸ List.mem_cons_self _ _)
    have htl : t ∉ l := fun h => ht (List.mem_cons_of_mem _ h)
    rw [List.foldl_cons, List.foldl_cons, ih t htl,
      copyStep_comm db rs htu]

theorem copyTables_reset_idem (db : DB) (rs : String → Finset Int) :
    ∀ (l : List String), l.Nodup → ∀ d : Dest,
      copyTables db true rs l (copyTables db true rs l d) =
        copyTables db true rs l d := by
  intro l
  induction l with
  | nil => intro _ d; rfl
  | cons t l ih =>
    intro hnd d
    have hndl : l.Nodup := hnd.of_cons
    have htl : t ∉ l := (List.nodup_cons.mp hnd).1
    rw [copyTables_eq_foldl, copyTables_eq_foldl, List.foldl_cons,
      List.foldl_cons]
    rw [copyStep_fold_comm db rs l t htl, copyStep_idem db rs t]
    have := ih hndl (copyStep db true rs d t)
    rw [copyTables_eq_foldl, copyTables_eq_foldl] at this
    exact this

/-! Glue lemmas for the claims. -/

theorem FkAcyclic.no_self {allFks : List ForeignKey}
    (hacyc : FkAcyclic allFks) {fk : ForeignKey} (hmem : fk ∈ allFks)
    (hnul : fk.IsNullable = false) : fk.FromTable ≠ fk.ToTable := by
  intro hself
  have hS : ({fk.FromTable} : Finset String) ∈ (fkTables allFks).powerset := by
    rw [Finset.mem_powerset, Finset.singleton_subset_iff]
    unfold fkTables
    rw [List.mem_toFinset, List.mem_flatMap]
    exact ⟨fk, hmem, by simp⟩
  obtain ⟨c, hc, hcf⟩ := hacyc _ hS (Finset.singleton_nonempty _)
  have hcc : c = fk.FromTable := Finset.mem_singleton.mp hc
  subst hcc
  exact hcf fk hmem rfl hnul (by
    rw [← hself]
    exact Finset.mem_singleton_self _)

theorem childToParents_subset_spec {allFks : List ForeignKey} {c : String}
    {e : FkEdge} (h : e ∈ childToParents allFks c) :
    e ∈ specParentEdges allFks c := by
  rw [mem_childToParents] at h
  rw [mem_specParentEdges]
  obtain ⟨fk, hmem, hnul, _, hc, rfl⟩ := h
  exact ⟨fk, hmem, hnul, hc, rfl⟩

theorem spec_subset_childToParents {allFks : List ForeignKey}
    (hacyc : FkAcyclic allFks) {c : String} {e : FkEdge}
    (h : e ∈ specParentEdges allFks c) : e ∈ childToParents allFks c := by
  rw [mem_specParentEdges] at h
  rw [mem_childToParents]
  obtain ⟨fk, hmem, hnul, hc, rfl⟩ := h
  exact ⟨fk, hmem, hnul, hacyc.no_self hmem hnul, hc, rfl⟩

theorem reach_code_iff_spec {db : DB} {allFks : List ForeignKey}
    {seeds : String → Finset Int} (hacyc : FkAcyclic allFks) (t : String)
    (i : Int) :
    Reach db (childToParents allFks) seeds t i ↔
      Reach db (specParentEdges allFks) seeds t i := by
  constructor
  · intro h
    induction h with
    | seed t i hi => exact Reach.seed t i hi
    | step c r e p hr hmem he hv ih =>
      exact Reach.step c r e p ih hmem (childToParents_subset_spec he) hv
  · intro h
    induction h with
    | seed t i hi => exact Reach.seed t i hi
    | step c r e p hr hmem he hv ih =>
      exact Reach.step c r e p ih hmem (spec_subset_childToParents hacyc he) hv

theorem closureSets_eq_with_pickHead (db : DB) (allFks : List ForeignKey)
    (req : List (String × Nat)) :
    closureSets db allFks req = closureSetsWith pickHead db allFks req :=
  rfl

theorem tablesNeedingCopy_nodup (db : DB) (allFks : List ForeignKey)
    (req : List (String × Nat)) : (tablesNeedingCopy db allFks req).Nodup :=
  (rowSetKeys_nodup allFks req).filter _

/-! The claims. -/

/-- C1: for every acyclic non-nullable foreign-key graph and every seed row
set, the per-table row-id sets computed by the BFS closure in
SyncPartialData hold exactly the rows transitively reachable from the seed
rows by following non-nullable child-to-parent foreign-key references:
every reachable row is included and no other row is. -/
theorem closure_matches_reachable (db : DB) (allFks : List ForeignKey)
    (req : List (String × Nat)) (hnodup : (req.map Prod.fst).Nodup)
    (hacyc : FkAcyclic allFks) (t : String) (i : Int) :
    i ∈ closureSets db allFks req t ↔
      Reach db (specParentEdges allFks) (seedRowSets db req) t i := by
  rw [closureSets_eq_with_pickHead,
    closureSetsWith_mem_iff pickHead db allFks req hnodup t i]
  exact reach_code_iff_spec hacyc t i

/-- Witness for C1 at the running example. -/
theorem closure_matches_reachable_witness :
    (exReq.map Prod.fst).Nodup ∧ FkAcyclic exFks ∧
      ((100 : Int) ∈ closureSets exDb exFks exReq "orders" ↔
        Reach exDb (specParentEdges exFks) (seedRowSets exDb exReq)
          "orders" 100) :=
  ⟨by decide, by decide,
    closure_matches_reachable exDb exFks exReq (by decide) (by decide)
      "orders" 100⟩

/-- C2: in the order produced by partialTopoSort, for every non-nullable,
non-self-referencing foreign-key edge with both endpoints in the order, the
parent table comes strictly before the child table. -/
theorem topo_parent_before_child (allFks : List ForeignKey)
    (needed out : List String) (fk : ForeignKey)
    (hnd : needed.Nodup)
    (hok : partialTopoSort allFks needed = Except.ok out)
    (hmem : fk ∈ allFks) (hnul : fk.IsNullable = false)
    (hns : fk.FromTable ≠ fk.ToTable)
    (hfrom : fk.FromTable ∈ out) (hto : fk.ToTable ∈ out) :
    out.indexOf fk.ToTable < out.indexOf fk.FromTable := by
  obtain ⟨hnd_out, hmem_out, hord_out⟩ := partialTopoSort_ok_facts hnd hok
  have hfromN : fk.FromTable ∈ needed := (hmem_out _).mp hfrom
  have htoN : fk.ToTable ∈ needed := (hmem_out _).mp hto
  have hdep : fk.ToTable ∈ depMap allFks needed fk.FromTable :=
    mem_depMap.mpr ⟨fk, hmem, hns, hfromN, htoN, hnul, rfl, rfl⟩
  have hn : out.indexOf fk.FromTable < out.length :=
    List.indexOf_lt_length.mpr hfrom
  have hget : out.get ⟨out.indexOf fk.FromTable, hn⟩ = fk.FromTable := by
    rw [List.get_eq_getElem]
    exact List.getElem_indexOf hn
  have htake : fk.ToTable ∈ out.take (out.indexOf fk.FromTable) := by
    refine hord_out _ hn fk.ToTable ?_
    rw [hget]
    exact hdep
  rw [List.mem_take_iff_getElem] at htake
  obtain ⟨m, hm, hmp⟩ := htake
  have hm1 : m < out.indexOf fk.FromTable :=
    lt_of_lt_of_le hm (min_le_left _ _)
  have hm2 : m < out.length := lt_of_lt_of_le hm (min_le_right _ _)
  have hidx : out.indexOf fk.ToTable = m := by
    have h1 : out.indexOf fk.ToTable < out.length :=
      List.indexOf_lt_length.mpr hto
    have h2 : out[out.indexOf fk.ToTable] = out[m] := by
      rw [hmp]
      exact List.getElem_indexOf h1
    exact (List.Nodup.getElem_inj_iff hnd_out).mp h2
  omega

/-- Witness for C2 at the running example. -/
theorem topo_parent_before_child_witness :
    (["customers", "orders", "order_items"] : List String).Nodup ∧
    partialTopoSort exFks ["customers", "orders", "order_items"] =
      Except.ok ["customers", "orders", "order_items"] ∧
    (["customers", "orders", "order_items"] : List String).indexOf
        "customers" <
      (["customers", "orders", "order_items"] : List String).indexOf
        "orders" :=
  ⟨by decide, rfl,
    topo_parent_before_child exFks ["customers", "orders", "order_items"]
      ["customers", "orders", "order_items"]
      ⟨"orders", "customer_id", "customers", "id", false⟩
      (by decide) rfl (by decide) (by decide) (by decide) (by decide)
      (by decide)⟩

/-- Counterexample to C3: two foreign keys from the same child table to the
same parent table make partialTopoSort report a cycle although the edge
graph restricted to the input set is acyclic and no referenced table is
missing from the set. -/
def dupFks : List ForeignKey :=
  [⟨"a", "x", "b", "id", false⟩, ⟨"a", "y", "b", "id", false⟩]

/-- Counterexample for C3: error without a cycle or a missing table. -/
theorem topo_dup_counterexample :
    partialTopoSort dupFks ["a", "b"] =
      Except.error
        "topological sort: cycle detected or missing table references" ∧
    KahnNoCycle dupFks ["a", "b"] ∧
    (∀ fk ∈ dupFks, fk.FromTable ∈ (["a", "b"] : List String) ∧
      fk.ToTable ∈ (["a", "b"] : List String)) :=
  ⟨rfl, by decide, by decide⟩

/-- C3 as amended: partialTopoSort succeeds exactly when the distinct
scheduling edges restricted to the input set are acyclic and no child table
has two foreign keys to the same parent table within the set; a referenced
table missing from the set never by itself causes an error, since such
edges are dropped; on success the order contains every input table. -/
theorem topo_error_characterization (allFks : List ForeignKey)
    (needed : List String) (hnd : needed.Nodup) :
    ((∃ out, partialTopoSort allFks needed = Except.ok out) ↔
      ((∀ c ∈ needed, (depMap allFks needed c).Nodup) ∧
        KahnNoCycle allFks needed)) ∧
    (∀ out, partialTopoSort allFks needed = Except.ok out →
      ∀ t ∈ needed, t ∈ out) :=
  ⟨partialTopoSort_ok_iff hnd,
    fun _ hok t ht => ((partialTopoSort_ok_facts hnd hok).2.1 t).mpr ht⟩

/-- Witness for the amended C3 at the running example. -/
theorem topo_error_characterization_witness :
    (["customers", "orders", "order_items"] : List String).Nodup ∧
    (((∃ out, partialTopoSort exFks ["customers", "orders", "order_items"] =
        Except.ok out) ↔
      ((∀ c ∈ (["customers", "orders", "order_items"] : List String),
        (depMap exFks ["customers", "orders", "order_items"] c).Nodup) ∧
        KahnNoCycle exFks ["customers", "orders", "order_items"])) ∧
    (∀ out, partialTopoSort exFks ["customers", "orders", "order_items"] =
        Except.ok out →
      ∀ t ∈ (["customers", "orders", "order_items"] : List String),
        t ∈ out)) :=
  ⟨by decide,
    topo_error_characterization exFks ["customers", "orders", "order_items"]
      (by decide)⟩

/-- C9: on the worked example of the specification, the closure computes
order_items 10 and 11, orders 100 and 101, customer 5, and the copy order
is customers, orders, order_items. -/
theorem end_to_end_example :
    closureSets exDb exFks exReq "order_items" = {10, 11} ∧
    closureSets exDb exFks exReq "orders" = {100, 101} ∧
    closureSets exDb exFks exReq "customers" = {5} ∧
    copyOrder exDb exFks exReq =
      Except.ok ["customers", "orders", "order_items"] :=
  ⟨rfl, rfl, rfl, rfl⟩

theorem processEdge_requeue_growth (db : DB) (c : String) (S : Finset Int)
    (s : BfsState) (e : FkEdge) :
    (processEdge db c S s e).queue ≠ s.queue →
      s.rowSets e.ParentTable ⊂
        (processEdge db c S s e).rowSets e.ParentTable := by
  intro hne
  rcases processEdge_spec db c S s e with ⟨hq, _, _, _⟩ | ⟨_, _, _, hns, _⟩
  · exact absurd hq hne
  · rw [processEdge_rowSets]
    dsimp only
    rw [if_pos rfl]
    refine Finset.ssubset_iff_subset_ne.mpr ⟨Finset.subset_union_left, ?_⟩
    intro hcontra
    exact hns (Finset.union_eq_left.mp hcontra.symm)

theorem slackG_le_bound (keys : List String) (U : Finset Int)
    (s : BfsState) : slackG keys U s ≤ keys.length * U.card := by
  unfold slackG
  have h1 : ∑ t ∈ keys.toFinset, (U.card - (s.rowSets t).card) ≤
      keys.toFinset.card • U.card :=
    Finset.sum_le_card_nsmul _ _ _ (fun t _ => Nat.sub_le _ _)
  rw [smul_eq_mul] at h1
  have h2 := List.toFinset_card_le keys
  have h3 : keys.toFinset.card * U.card ≤ keys.length * U.card :=
    Nat.mul_le_mul_right _ h2
  omega

/-- Source database of the C4 counterexample: one table with one row. -/
def oneDb : DB := fun t => if t = "a" then [⟨1, []⟩] else []

/-- Request of the C4 counterexample. -/
def oneReq : List (String × Nat) := [("a", 1)]

/-- Counterexample to C4 as stated: with one requested table and zero
foreign-key edges the loop performs one enqueue event (the initial enqueue
of the requested table), which already exceeds the claimed bound of number
of tables times number of edges, namely one times zero; the graph is
trivially acyclic. -/
theorem bfs_enqueue_counterexample :
    (closureState oneDb [] oneReq).enqCount = 1 ∧
    (rowSetKeys ([] : List ForeignKey) oneReq).length *
      ([] : List ForeignKey).length = 0 ∧
    FkAcyclic ([] : List ForeignKey) ∧
    ¬ ((closureState oneDb [] oneReq).enqCount ≤
      (rowSetKeys ([] : List ForeignKey) oneReq).length *
        ([] : List ForeignKey).length) :=
  ⟨rfl, rfl, by decide, by decide⟩

/-- C4 as amended: under any dequeue discipline the BFS closure loop
terminates (the queue provably empties within the explicit fuel); each
table's row-id set only grows across the loop; a table is re-enqueued only
when its set strictly gained new members; and, the stated tables-times-
edges bound failing to count the initial enqueues of the requested tables,
the total number of enqueue events is at most the number of requested
tables plus the number of tables with a row-set entry times the number of
candidate row ids of the source, every non-initial enqueue being paid for
by a strict growth of some table's id set. -/
theorem bfs_terminates_and_enqueue_bound (pick : BfsState → Nat) (db : DB)
    (allFks : List ForeignKey) (req : List (String × Nat))
    (hnodup : (req.map Prod.fst).Nodup) :
    (closureStateWith pick db allFks req).queue = [] ∧
    (∀ fuel s t, s.rowSets t ⊆
      (bfsRun db (childToParents allFks) pick fuel s).rowSets t) ∧
    (∀ c S s e, (processEdge db c S s e).queue ≠ s.queue →
      s.rowSets e.ParentTable ⊂
        (processEdge db c S s e).rowSets e.ParentTable) ∧
    (FkAcyclic allFks →
      (closureStateWith pick db allFks req).enqCount ≤
        req.length + (rowSetKeys allFks req).length *
          (allIds db allFks req).card) := by
  obtain ⟨_, hqnil, hcnt⟩ :=
    closureStateWith_master pick db allFks req hnodup
  refine ⟨hqnil, ?_, processEdge_requeue_growth db, ?_⟩
  · intro fuel s t
    exact bfsRun_rowSets_mono db (childToParents allFks) pick fuel s t
  · intro _
    have hb := slackG_le_bound (rowSetKeys allFks req)
      (allIds db allFks req) (initState db req)
    unfold slack at hcnt
    omega

/-- Witness for the amended C4 at the running example. -/
theorem bfs_terminates_witness :
    (exReq.map Prod.fst).Nodup ∧
    (closureStateWith pickHead exDb exFks exReq).queue = [] :=
  ⟨by decide,
    (bfs_terminates_and_enqueue_bound pickHead exDb exFks exReq
      (by decide)).1⟩

/-- C5: no edge of the adjacency map or of the scheduling graph derives
from a self-referencing or nullable relationship; consequently a table
whose incoming relationships are all nullable or self-referencing is
never pulled into the closure by them and never constrains the order. -/
theorem nullable_self_excluded (allFks : List ForeignKey) :
    (∀ c e, e ∈ childToParents allFks c →
      ∃ fk ∈ allFks, fk.IsNullable = false ∧ fk.FromTable ≠ fk.ToTable ∧
        fk.FromTable = c ∧ e = ⟨fk.ToTable, fk.ToColumn, fk.FromColumn⟩) ∧
    (∀ needed c p, p ∈ depMap allFks needed c →
      ∃ fk ∈ allFks, fk.IsNullable = false ∧ fk.FromTable ≠ fk.ToTable ∧
        fk.FromTable = c ∧ fk.ToTable = p) ∧
    (∀ db req P, (req.map Prod.fst).Nodup → P ∉ req.map Prod.fst →
      (∀ fk ∈ allFks, fk.ToTable = P →
        fk.IsNullable = true ∨ fk.FromTable = fk.ToTable) →
      closureSets db allFks req P = ∅) ∧
    (∀ needed c P,
      (∀ fk ∈ allFks, fk.ToTable = P →
        fk.IsNullable = true ∨ fk.FromTable = fk.ToTable) →
      P ∉ depMap allFks needed c) := by
  refine ⟨?_, ?_, ?_, ?_⟩
  · intro c e he
    exact mem_childToParents.mp he
  · intro needed c p hp
    rw [mem_depMap] at hp
    obtain ⟨fk, hmem, hne, _, _, hnul, hc, hp⟩ := hp
    exact ⟨fk, hmem, hnul, hne, hc, hp⟩
  · intro db req P hnodup hPreq hPfk
    ext i
    simp only [Finset.not_mem_empty, iff_false]
    rw [closureSets_eq_with_pickHead,
      closureSetsWith_mem_iff pickHead db allFks req hnodup P i]
    intro hreach
    cases hreach with
    | seed t i hi =>
      rw [seedRowSets_eq_empty hPreq] at hi
      exact absurd hi (Finset.not_mem_empty i)
    | step c r e p hr hmem he hv =>
      obtain ⟨fk, hfk, hnul, hne, hc, hedge⟩ := mem_childToParents.mp he
      rcases hPfk fk hfk (by rw [hedge]) with h1 | h1
      · rw [hnul] at h1
        cases h1
      · exact hne h1
  · intro needed c P hPfk hcontra
    rw [mem_depMap] at hcontra
    obtain ⟨fk, hmem, hne, _, _, hnul, _, hto⟩ := hcontra
    rcases hPfk fk hmem hto with h1 | h1
    · rw [hnul] at h1
      cases h1
    · exact hne h1

/-- Relationships of the C5 witness: one nullable link into customers. -/
def nulFks : List ForeignKey :=
  [⟨"orders", "customer_id", "customers", "id", true⟩]

/-- Source database of the C5 witness. -/
def nulDb : DB := fun t =>
  if t = "orders" then [⟨100, [("customer_id", some 5)]⟩]
  else if t = "customers" then [⟨5, []⟩]
  else []

/-- Request of the C5 witness. -/
def nulReq : List (String × Nat) := [("orders", 1)]

/-- Witness for C5: a table reached only through a nullable relationship
keeps an empty closure set. -/
theorem nullable_self_excluded_witness :
    ((nulReq.map Prod.fst).Nodup ∧
      "customers" ∉ nulReq.map Prod.fst ∧
      (∀ fk ∈ nulFks, fk.ToTable = "customers" →
        fk.IsNullable = true ∨ fk.FromTable = fk.ToTable)) ∧
    closureSets nulDb nulFks nulReq "customers" = ∅ :=
  ⟨⟨by decide, by decide, by decide⟩,
    (nullable_self_excluded nulFks).2.2.1 nulDb nulReq "customers"
      (by decide) (by decide) (by decide)⟩

/-- C6: before the closure loop begins every table named by a relationship
or by the request has a rowSets entry, so the parent set looked up while
processing a discovered edge always exists. -/
theorem rowSets_keys_cover (allFks : List ForeignKey)
    (req : List (String × Nat)) :
    (∀ fk ∈ allFks, fk.FromTable ∈ rowSetKeys allFks req ∧
      fk.ToTable ∈ rowSetKeys allFks req) ∧
    (∀ p ∈ req, p.1 ∈ rowSetKeys allFks req) ∧
    (∀ c e, e ∈ childToParents allFks c →
      e.ParentTable ∈ rowSetKeys allFks req) :=
  ⟨fun _ h => fk_mem_rowSetKeys h,
    fun p hp => req_mem_rowSetKeys (List.mem_map.mpr ⟨p, hp, rfl⟩),
    fun _ _ he => (childToParents_parent_mem_keys req he).1⟩

/-- Witness for C6 at the running example. -/
theorem rowSets_keys_cover_witness :
    ((⟨"orders", "customer_id", "customers", "id", false⟩ : ForeignKey) ∈
      exFks) ∧
    ("orders" ∈ rowSetKeys exFks exReq ∧
      "customers" ∈ rowSetKeys exFks exReq) :=
  ⟨by decide,
    (rowSets_keys_cover exFks exReq).1
      ⟨"orders", "customer_id", "customers", "id", false⟩ (by decide)⟩

/-! Error propagation of the BFS phase (claim C7). -/

theorem processEdgeE_error_shape {store : ProdStore} {c : String}
    {S : Finset Int} {s : BfsState} {e : FkEdge} {err : String}
    (h : processEdgeE store c S s e = Except.error err) :
    ∃ e0, err = "fetchReferencedParentIDs error: " ++ e0 := by
  unfold processEdgeE at h
  cases hf : store.fetchReferencedParentIDs c e S with
  | error e0 =>
    rw [hf] at h
    injection h with h
    exact ⟨e0, h.symm⟩
  | ok ids =>
    rw [hf] at h
    dsimp only at h
    split at h
    · cases h
    · cases h

theorem foldlME_error_shape {store : ProdStore} {c : String}
    {S : Finset Int} :
    ∀ (edges : List FkEdge) (s : BfsState) {err : String},
      edges.foldlM (processEdgeE store c S) s = Except.error err →
      ∃ e0, err = "fetchReferencedParentIDs error: " ++ e0 := by
  intro edges
  induction edges with
  | nil =>
    intro s err h
    rw [List.foldlM_nil] at h
    cases h
  | cons e es ih =>
    intro s err h
    rw [List.foldlM_cons] at h
    cases hp : processEdgeE store c S s e with
    | error e1 =>
      rw [hp] at h
      have herr : e1 = err := by
        injection h
      exact herr ▸ processEdgeE_error_shape hp
    | ok s1 =>
      rw [hp] at h
      exact ih s1 h

theorem bfsIterE_error_shape {store : ProdStore}
    {adj : String → List FkEdge} {s : BfsState} {c : String}
    {rest : List String} {err : String}
    (h : bfsIterE store adj s c rest = Except.error err) :
    ∃ e0, err = "fetchReferencedParentIDs error: " ++ e0 := by
  unfold bfsIterE at h
  dsimp only at h
  split at h
  · cases h
  · exact foldlME_error_shape _ _ h

theorem bfsRunE_error_shape {store : ProdStore}
    {adj : String → List FkEdge} :
    ∀ (fuel : Nat) (s : BfsState) {err : String},
      bfsRunE store adj fuel s = Except.error err →
      ∃ e0, err = "fetchReferencedParentIDs error: " ++ e0 := by
  intro fuel
  induction fuel with
  | zero =>
    intro s err h
    cases h
  | succ fuel ih =>
    intro s err h
    rw [bfsRunE] at h
    cases hq : s.queue with
    | nil =>
      rw [hq] at h
      cases h
    | cons c rest =>
      rw [hq] at h
      dsimp only at h
      cases hi : bfsIterE store adj s c rest with
      | error e1 =>
        rw [hi] at h
        have herr : e1 = err := by
          injection h
        exact herr ▸ bfsIterE_error_shape hi
      | ok s1 =>
        rw [hi] at h
        exact ih s1 h

/-- C7 as amended: a per-edge id-fetch failure during BFS expansion aborts
the whole of SyncPartialData at once with the underlying error wrapped
under the fixed prefix of sync.go line 120 — a prefix that does not itself
name the failing table or edge — and the run returns no destination state,
so no partial closure is used for scheduling or copying. -/
theorem syncE_bfs_error_aborts (prod : ProdStore) (dev : DevStore)
    (allFks : List ForeignKey) (req : List (String × Nat))
    (resetTables : Bool) (fuel : Nat) (d0 : Dest)
    (seeded : String → Finset Int) (err : String)
    (hseed : seedRowSetsE prod req = Except.ok seeded)
    (hbfs : bfsRunE prod (childToParents allFks) fuel
      { rowSets := seeded
        queue := req.map Prod.fst
        enqueued := fun t => (req.map Prod.fst).contains t
        enqCount := (req.map Prod.fst).length } = Except.error err) :
    SyncPartialDataE prod dev allFks req resetTables fuel d0 =
      Except.error err ∧
    ∃ e0, err = "fetchReferencedParentIDs error: " ++ e0 := by
  constructor
  · unfold SyncPartialDataE
    rw [hseed]
    dsimp only
    rw [hbfs]
  · exact bfsRunE_error_shape fuel _ hbfs

/-- A store whose per-edge id fetch always fails with the message boom. -/
def badStore : ProdStore :=
  { fetchSomeIDs := fun _ _ => Except.ok [1]
    fetchReferencedParentIDs := fun _ _ _ => Except.error "boom"
    fetchRowsByIDs := fun _ _ => Except.ok [] }

/-- A destination store over the pure destination model. -/
def okDev : DevStore :=
  { truncateTable := fun d t => Except.ok (truncateTable d t)
    insertRows := fun d t rows => Except.ok (insertRows d t rows) }

/-- A second schema with entirely different table and column names. -/
def exFks2 : List ForeignKey :=
  [⟨"posts", "author_id", "users", "id", false⟩]

/-- Request against the second schema. -/
def exReq2 : List (String × Nat) := [("posts", 1)]

/-- Seeded sets of the failing example run. -/
def seededEx : String → Finset Int :=
  fun t => if t = "order_items" then {1} else ∅

/-- Witness for the amended C7: the failing example run aborts with the
wrapped message and no destination state. -/
theorem syncE_bfs_error_aborts_witness :
    seedRowSetsE badStore exReq = Except.ok seededEx ∧
    bfsRunE badStore (childToParents exFks) 5
      { rowSets := seededEx
        queue := exReq.map Prod.fst
        enqueued := fun t => (exReq.map Prod.fst).contains t
        enqCount := (exReq.map Prod.fst).length } =
      Except.error "fetchReferencedParentIDs error: boom" ∧
    (SyncPartialDataE badStore okDev exFks exReq true 5 (fun _ => []) =
        Except.error "fetchReferencedParentIDs error: boom" ∧
      ∃ e0, "fetchReferencedParentIDs error: boom" =
        "fetchReferencedParentIDs error: " ++ e0) :=
  ⟨rfl, rfl,
    syncE_bfs_error_aborts badStore okDev exFks exReq true 5 (fun _ => [])
      seededEx _ rfl rfl⟩

/-- Counterexample to C7 as stated: two runs failing on entirely different
schemas — different child tables, parent tables and columns — abort with
the identical error string, so the wrapped error does not identify the
failing table or edge. -/
theorem syncE_error_not_identifying :
    SyncPartialDataE badStore okDev exFks exReq true 5 (fun _ => []) =
      Except.error "fetchReferencedParentIDs error: boom" ∧
    SyncPartialDataE badStore okDev exFks2 exReq2 true 5 (fun _ => []) =
      Except.error "fetchReferencedParentIDs error: boom" :=
  ⟨rfl, rfl⟩

/-- C8: with resetTables set, running the full pipeline twice with the
same requested tables and limits against an unchanged source yields the
same destination contents after each run: feeding the first run's
destination into a second run reproduces it exactly (and a failing run
propagates its error unchanged). -/
theorem sync_reset_idempotent (db : DB) (allFks : List ForeignKey)
    (req : List (String × Nat)) (d : Dest) :
    (SyncPartialData db allFks req true d).bind
      (fun d1 => SyncPartialData db allFks req true d1) =
      SyncPartialData db allFks req true d := by
  unfold SyncPartialData
  cases hts : partialTopoSort allFks (tablesNeedingCopy db allFks req) with
  | error e => rfl
  | ok sorted =>
    show Except.ok (copyTables db true (closureSets db allFks req) sorted
        (copyTables db true (closureSets db allFks req) sorted d)) =
      Except.ok (copyTables db true (closureSets db allFks req) sorted d)
    rw [copyTables_reset_idem db (closureSets db allFks req) sorted
      (partialTopoSort_ok_facts (tablesNeedingCopy_nodup db allFks req)
        hts).1 d]

theorem seedRowSets_perm {db : DB} {req1 req2 : List (String × Nat)}
    (hperm : req1.Perm req2) :
    seedRowSets db req1 = seedRowSets db req2 := by
  funext t
  ext i
  rw [mem_seedRowSets, mem_seedRowSets]
  constructor
  · rintro ⟨p, hp, hpt, hpi⟩
    exact ⟨p, hperm.mem_iff.mp hp, hpt, hpi⟩
  · rintro ⟨p, hp, hpt, hpi⟩
    exact ⟨p, hperm.mem_iff.mpr hp, hpt, hpi⟩

theorem rowSetKeys_perm_mem {allFks : List ForeignKey}
    {req1 req2 : List (String × Nat)} (hperm : req1.Perm req2)
    (t : String) :
    t ∈ rowSetKeys allFks req1 ↔ t ∈ rowSetKeys allFks req2 := by
  unfold rowSetKeys
  rw [List.mem_dedup, List.mem_dedup, List.mem_append, List.mem_append]
  exact or_congr Iff.rfl (hperm.map Prod.fst).mem_iff

/-- C10: for a fixed source, relationship list and request, the final
per-table row-id sets of the closure, and hence the set of tables needing
copy, do not depend on the dequeue discipline of the work queue or on the
order in which the request entries are enumerated: any two runs agree. -/
theorem closure_independent_of_order (db : DB) (allFks : List ForeignKey)
    (req1 req2 : List (String × Nat)) (pick1 pick2 : BfsState → Nat)
    (hperm : req1.Perm req2) (hnodup : (req1.map Prod.fst).Nodup) :
    (∀ t, closureSetsWith pick1 db allFks req1 t =
      closureSetsWith pick2 db allFks req2 t) ∧
    (∀ t, t ∈ tablesNeedingCopyWith pick1 db allFks req1 ↔
      t ∈ tablesNeedingCopyWith pick2 db allFks req2) := by
  have hnodup2 : (req2.map Prod.fst).Nodup :=
    ((hperm.map Prod.fst).nodup_iff).mp hnodup
  have hseeds : seedRowSets db req1 = seedRowSets db req2 :=
    seedRowSets_perm hperm
  have hsets : ∀ t, closureSetsWith pick1 db allFks req1 t =
      closureSetsWith pick2 db allFks req2 t := by
    intro t
    ext i
    rw [closureSetsWith_mem_iff pick1 db allFks req1 hnodup t i,
      closureSetsWith_mem_iff pick2 db allFks req2 hnodup2 t i, hseeds]
  refine ⟨hsets, ?_⟩
  intro t
  unfold tablesNeedingCopyWith
  rw [List.mem_filter, List.mem_filter, hsets t]
  exact and_congr (rowSetKeys_perm_mem hperm t) Iff.rfl

/-- A dequeue discipline different from the head-of-queue one. -/
def pickAlt : BfsState → Nat := fun s => s.queue.length - 1

/-- Witness for C10: the running example computed under two different
dequeue disciplines agrees. -/
theorem closure_independent_witness :
    exReq.Perm exReq ∧ (exReq.map Prod.fst).Nodup ∧
    (∀ t, closureSetsWith pickHead exDb exFks exReq t =
      closureSetsWith pickAlt exDb exFks exReq t) :=
  ⟨List.Perm.refl _, by decide,
    (closure_independent_of_order exDb exFks exReq exReq pickHead pickAlt
      (List.Perm.refl _) (by decide)).1⟩

end DevSeeder
